import Mathlib

/-!
Programmers Notepad 2 string utilities (`pnwtl/pnstrings.h`).

A shallow embedding of `CustomFormatStringBuilder<T>::Build` and its helper
`SafeGetNextChar`, of `StringTokenise`, and of `strFirstNonWS` and
`strLastNonWSChar`.

Conventions of the embedding.

* A C string (`LPCTSTR`) is the list of the characters stored from the pointer
  on.  The terminator is the first `NUL` of the list, or the end of the list
  when the list holds no `NUL`: reading at or past the end of the list yields
  `NUL`.  `&str[k]` is `str.drop k`.
* `int` indices are natural numbers (templates are shorter than `2^31`
  characters, so no index wraps); the loop index only grows.  The comparisons
  `i == len-1` / `i != len-1` of the source are written `i + 1 = len` /
  `i + 1 ≠ len`, which is the same comparison on integers and does not
  depend on truncated subtraction.
* `sizeof(TCHAR)` is a parameter, `sizeofTCHAR`.
* The callbacks `OnFormatChar` / `OnFormatKey` of the derived class are
  functions returning the text they append to `m_string`; they return
  normally, so the `try` / `catch(...)` around `OnFormatKey` has nothing to
  catch.  Every invocation is recorded, in order, in a call log kept next to
  `m_string`.
-/

namespace PN

/-- The string terminator `'\0'` (the source writes `NULL` for it). -/
def NUL : Char := Char.ofNat 0

/-- The character `str[i]` of a C string. -/
def charAt (str : List Char) (i : Nat) : Char := str.getD i NUL

/-- The C library function `_tcslen`: number of characters before the terminator. -/
def tcslen : List Char → Nat
  | [] => 0
  | c :: cs => if c = NUL then 0 else tcslen cs + 1

/-- The C library function `_tcschr(p, c)`: offset from `p` of the first occurrence of
`c` in the C string at `p` (the terminator counts as part of the string), or
`none` for a `NULL` result. -/
def tcschr : List Char → Char → Option Nat
  | [], c => if c = NUL then some 0 else none
  | x :: xs, c =>
    if x = c then some 0
    else if x = NUL then none
    else (tcschr xs c).map (· + 1)

/-- The C library function `_tcsncpy(buf, p, n)` followed by `buf[n] = '\0'`: the C string
then held by `buf`, i.e. the first `n` characters of the C string at `p`. -/
def tcsncpy : List Char → Nat → List Char
  | [], _ => []
  | _ :: _, 0 => []
  | x :: xs, n + 1 => if x = NUL then [] else x :: tcsncpy xs n

/-- One invocation of a callback of the derived class. -/
inductive Call where
  | formatChar (thechar : Char)
  | formatKey (key : List Char)
  deriving DecidableEq, Repr

/-- The callbacks of the derived class `T`: each returns the text it appends to
`m_string`. -/
structure Callbacks where
  OnFormatChar : Char → List Char
  OnFormatKey : List Char → List Char

/-- The base-class callbacks `OnFormatChar(TCHAR){}` and `OnFormatKey(LPCTSTR){}`. -/
def baseCallbacks : Callbacks := ⟨fun _ => [], fun _ => []⟩

/-- Callbacks for the spec's example: `OnFormatKey` appends the value a dictionary
holds for the key (nothing when the key is absent), `OnFormatChar` is the base no-op. -/
def dictionaryCallbacks (dict : List (List Char × List Char)) : Callbacks :=
  ⟨fun _ => [], fun key => (dict.lookup key).getD []⟩

/-- What a run of `Build` has produced: the member `m_string` and the log of
callback invocations. -/
structure Output where
  m_string : List Char
  calls : List Call
  deriving DecidableEq, Repr

/-- The state of the `for` loop of `Build`: the index `i` and what was produced. -/
structure LoopState where
  i : Nat
  out : Output
  deriving DecidableEq, Repr

/-- `SafeGetNextChar(str, i, len)` (asserted precondition `0 <= i < len`). -/
def SafeGetNextChar (str : List Char) (i len : Nat) : Char :=
  if i + 1 = len then NUL else charAt str (i + 1)

/-- Nothing produced yet: `m_string = _T("")` and no callback invoked. -/
def Output.empty : Output := ⟨[], []⟩

/-- What two consecutive stretches of a run produce, put together. -/
def Output.append (a b : Output) : Output :=
  ⟨a.m_string ++ b.m_string, a.calls ++ b.calls⟩

/-- `m_string += c`. -/
def Output.push (o : Output) (c : Char) : Output := ⟨o.m_string ++ [c], o.calls⟩

/-- `pT->OnFormatChar(next)`. -/
def Output.formatChar (cb : Callbacks) (o : Output) (next : Char) : Output :=
  ⟨o.m_string ++ cb.OnFormatChar next, o.calls ++ [Call.formatChar next]⟩

/-- `pT->OnFormatKey(buf)`. -/
def Output.formatKey (cb : Callbacks) (o : Output) (buf : List Char) : Output :=
  ⟨o.m_string ++ cb.OnFormatKey buf, o.calls ++ [Call.formatKey buf]⟩

/-- Lines 151-172 of the source, "we matched a $(x) property...": the state at the end
of the loop body. -/
def matchedProperty (cb : Callbacks) (sizeofTCHAR : Nat) (str : List Char)
    (s : LoopState) : LoopState :=
  let pProp := str.drop (s.i + 2)
  match tcschr pProp ')' with
  | some endProp =>
    let keylen := endProp / sizeofTCHAR
    let buf := tcsncpy pProp keylen
    ⟨s.i + (2 + keylen), s.out.formatKey cb buf⟩
  | none => s

/-- The body of the `for` loop of `Build` at a state with `i < len`: the state when control
reaches the loop's `i++` (by falling off the body or by `continue`). -/
def loopBody (cb : Callbacks) (sizeofTCHAR : Nat) (str : List Char) (len : Nat)
    (s : LoopState) : LoopState :=
  if charAt str s.i = '%' then
    let next := SafeGetNextChar str s.i len
    if next = NUL then
      ⟨s.i, s.out.push (charAt str s.i)⟩
    else if next = '%' then
      ⟨s.i + 1, s.out.push next⟩
    else
      ⟨s.i + 1, s.out.formatChar cb next⟩
  else if charAt str s.i = '$' ∧ s.i + 1 ≠ len then
    if charAt str (s.i + 1) = '$' then
      if SafeGetNextChar str (s.i + 1) len = '(' then
        ⟨s.i + 1, s.out.push (charAt str s.i)⟩
      else
        matchedProperty cb sizeofTCHAR str s
    else if charAt str (s.i + 1) ≠ '(' then
      ⟨s.i, s.out.push (charAt str s.i)⟩
    else
      matchedProperty cb sizeofTCHAR str s
  else
    ⟨s.i, s.out.push (charAt str s.i)⟩

/-- The `for(...; i < len; i++)` loop of `Build`, with a bound on the number of iterations:
`none` when the bound is used up before the loop condition fails. -/
def buildLoop (cb : Callbacks) (sizeofTCHAR : Nat) (str : List Char) (len : Nat) :
    Nat → LoopState → Option LoopState
  | 0, s => if s.i < len then none else some s
  | fuel + 1, s =>
    if s.i < len then
      let s1 := loopBody cb sizeofTCHAR str len s
      buildLoop cb sizeofTCHAR str len fuel ⟨s1.i + 1, s1.out⟩
    else some s

/-- `CustomFormatStringBuilder<T>::Build(str)`: the final `m_string` together with
the callback log.  The loop is given `len` iterations. -/
def Build (cb : Callbacks) (sizeofTCHAR : Nat) (str : List Char) : Option Output :=
  let len := tcslen str
  (buildLoop cb sizeofTCHAR str len len ⟨0, Output.empty⟩).map (·.out)

/-! ## `Build` with a key callback that may throw

The same loop with `OnFormatKey` returning either the text it appends or an
exception, and the `try` / `catch(...)` of lines 159-167 written out.  A run of
`Build` then ends in a value or in a propagated exception. -/

/-- Callbacks of a derived class whose `OnFormatKey` may throw an exception of type
`ε` (before it has appended anything) instead of returning the text it appends. -/
structure ThrowingCallbacks (ε : Type) where
  OnFormatChar : Char → List Char
  OnFormatKey : List Char → Except ε (List Char)

/-- The block `try { ...; pT->OnFormatKey(buf); } catch(...) { }`: an exception of the
callback is caught and dropped, `m_string` being what it was before the call. -/
def Output.tryFormatKey {ε : Type} (cb : ThrowingCallbacks ε) (o : Output)
    (buf : List Char) : Except ε Output :=
  match cb.OnFormatKey buf with
  | Except.ok text => Except.ok ⟨o.m_string ++ text, o.calls ++ [Call.formatKey buf]⟩
  | Except.error _ => Except.ok ⟨o.m_string, o.calls ++ [Call.formatKey buf]⟩

/-- Lines 151-172 with a key callback that may throw. -/
def matchedPropertyE {ε : Type} (cb : ThrowingCallbacks ε) (sizeofTCHAR : Nat)
    (str : List Char) (s : LoopState) : Except ε LoopState :=
  let pProp := str.drop (s.i + 2)
  match tcschr pProp ')' with
  | some endProp =>
    let keylen := endProp / sizeofTCHAR
    let buf := tcsncpy pProp keylen
    match s.out.tryFormatKey cb buf with
    | Except.ok o => Except.ok ⟨s.i + (2 + keylen), o⟩
    | Except.error e => Except.error e
  | none => Except.ok s

/-- The loop body with a key callback that may throw. -/
def loopBodyE {ε : Type} (cb : ThrowingCallbacks ε) (sizeofTCHAR : Nat) (str : List Char)
    (len : Nat) (s : LoopState) : Except ε LoopState :=
  if charAt str s.i = '%' then
    let next := SafeGetNextChar str s.i len
    if next = NUL then
      Except.ok ⟨s.i, s.out.push (charAt str s.i)⟩
    else if next = '%' then
      Except.ok ⟨s.i + 1, s.out.push next⟩
    else
      Except.ok ⟨s.i + 1, ⟨s.out.m_string ++ cb.OnFormatChar next,
        s.out.calls ++ [Call.formatChar next]⟩⟩
  else if charAt str s.i = '$' ∧ s.i + 1 ≠ len then
    if charAt str (s.i + 1) = '$' then
      if SafeGetNextChar str (s.i + 1) len = '(' then
        Except.ok ⟨s.i + 1, s.out.push (charAt str s.i)⟩
      else
        matchedPropertyE cb sizeofTCHAR str s
    else if charAt str (s.i + 1) ≠ '(' then
      Except.ok ⟨s.i, s.out.push (charAt str s.i)⟩
    else
      matchedPropertyE cb sizeofTCHAR str s
  else
    Except.ok ⟨s.i, s.out.push (charAt str s.i)⟩

/-- The `for` loop with a key callback that may throw: `none` when the bound on the
iterations is used up, `some (Except.error e)` when an exception leaves the loop. -/
def buildLoopE {ε : Type} (cb : ThrowingCallbacks ε) (sizeofTCHAR : Nat) (str : List Char)
    (len : Nat) : Nat → LoopState → Option (Except ε LoopState)
  | 0, s => if s.i < len then none else some (Except.ok s)
  | fuel + 1, s =>
    if s.i < len then
      match loopBodyE cb sizeofTCHAR str len s with
      | Except.ok s1 => buildLoopE cb sizeofTCHAR str len fuel ⟨s1.i + 1, s1.out⟩
      | Except.error e => some (Except.error e)
    else some (Except.ok s)

/-- `Build` with a key callback that may throw. -/
def BuildE {ε : Type} (cb : ThrowingCallbacks ε) (sizeofTCHAR : Nat) (str : List Char) :
    Option (Except ε Output) :=
  let len := tcslen str
  (buildLoopE cb sizeofTCHAR str len len ⟨0, Output.empty⟩).map (fun r => r.map (·.out))

/-- The callbacks that never throw obtained by catching: a key whose callback throws
appends nothing. -/
def ThrowingCallbacks.caught {ε : Type} (cb : ThrowingCallbacks ε) : Callbacks :=
  ⟨cb.OnFormatChar, fun key =>
    match cb.OnFormatKey key with
    | Except.ok text => text
    | Except.error _ => []⟩

/-! ## `Build` with every read and assertion checked -/

/-- A read of `str[k]` written as such in `Build` or `SafeGetNextChar`, in a string of
`len` characters: `none` when `k` is not an index of a character of the string, that
is outside `[0, len)`. -/
def readAt (str : List Char) (len k : Nat) : Option Char :=
  if k < len then some (charAt str k) else none

/-- `SafeGetNextChar` with its `PNASSERT(i < len)` checked (`none` when it fails;
`PNASSERT(i >= 0)` holds of a natural number) and its read checked. -/
def SafeGetNextCharChecked (str : List Char) (i len : Nat) : Option Char :=
  if i < len then
    if i + 1 = len then some NUL else readAt str len (i + 1)
  else none

/-- Lines 151-172 with the pointer `&str[i+2]` checked to point into the string or at
its terminator (index `len`), the `)` found by `_tcschr` checked to lie before the
terminator, and the characters copied by `_tcsncpy` checked to lie in the string. -/
def matchedPropertyChecked (cb : Callbacks) (sizeofTCHAR : Nat) (str : List Char)
    (len : Nat) (s : LoopState) : Option LoopState :=
  if s.i + 2 ≤ len then
    let pProp := str.drop (s.i + 2)
    match tcschr pProp ')' with
    | some endProp =>
      let keylen := endProp / sizeofTCHAR
      if s.i + 2 + endProp < len ∧ s.i + 2 + keylen ≤ len then
        let buf := tcsncpy pProp keylen
        some ⟨s.i + (2 + keylen), s.out.formatKey cb buf⟩
      else none
    | none => some s
  else none

/-- The loop body with every read of `str` and both assertions of `SafeGetNextChar`
checked: `none` when a read is out of bounds or an assertion fails. -/
def loopBodyChecked (cb : Callbacks) (sizeofTCHAR : Nat) (str : List Char) (len : Nat)
    (s : LoopState) : Option LoopState :=
  (readAt str len s.i).bind fun c =>
  if c = '%' then
    (SafeGetNextCharChecked str s.i len).bind fun next =>
    if next = NUL then
      some ⟨s.i, s.out.push c⟩
    else if next = '%' then
      some ⟨s.i + 1, s.out.push next⟩
    else
      some ⟨s.i + 1, s.out.formatChar cb next⟩
  else if c = '$' ∧ s.i + 1 ≠ len then
    (readAt str len (s.i + 1)).bind fun c1 =>
    if c1 = '$' then
      (SafeGetNextCharChecked str (s.i + 1) len).bind fun c2 =>
      if c2 = '(' then
        some ⟨s.i + 1, s.out.push c⟩
      else
        matchedPropertyChecked cb sizeofTCHAR str len s
    else if c1 ≠ '(' then
      some ⟨s.i, s.out.push c⟩
    else
      matchedPropertyChecked cb sizeofTCHAR str len s
  else
    some ⟨s.i, s.out.push c⟩

/-- The `for` loop with every read and assertion checked. -/
def buildLoopChecked (cb : Callbacks) (sizeofTCHAR : Nat) (str : List Char) (len : Nat) :
    Nat → LoopState → Option LoopState
  | 0, s => if s.i < len then none else some s
  | fuel + 1, s =>
    if s.i < len then
      (loopBodyChecked cb sizeofTCHAR str len s).bind fun s1 =>
        buildLoopChecked cb sizeofTCHAR str len fuel ⟨s1.i + 1, s1.out⟩
    else some s

/-- `Build` with every read and assertion checked: `none` when a read is out of bounds,
an assertion fails or `len` iterations do not end the loop. -/
def BuildChecked (cb : Callbacks) (sizeofTCHAR : Nat) (str : List Char) : Option Output :=
  let len := tcslen str
  (buildLoopChecked cb sizeofTCHAR str len len ⟨0, Output.empty⟩).map (·.out)

/-! ## `strFirstNonWS` and `strLastNonWSChar` -/

/-- The tab character, written `0x9` in the source. -/
def TAB : Char := Char.ofNat 9

/-- The test `*p == _T(' ') || *p == 0x9` of both loops. -/
def isWS (c : Char) : Bool := c == ' ' || c == TAB

/-- The `while` loop of `strFirstNonWS` with `p` at the given C string and the counter
at `i`. -/
def strFirstNonWS_loop : List Char → Nat → Nat
  | [], i => i
  | c :: cs, i =>
    if c ≠ NUL ∧ isWS c = true then strFirstNonWS_loop cs (i + 1) else i

/-- `strFirstNonWS(lineBuf)`. -/
def strFirstNonWS (lineBuf : List Char) : Nat := strFirstNonWS_loop lineBuf 0

/-- The `while` loop of `strLastNonWSChar` entered with `p = lineBuf + i`, `i ≥ 0`: `p`
and `i` move together, so `p > lineBuf` is `i > 0`. -/
def strLastNonWSChar_loop (lineBuf : List Char) : Nat → Int
  | 0 => 0
  | i + 1 =>
    if isWS (charAt lineBuf (i + 1)) = true then strLastNonWSChar_loop lineBuf i
    else ((i + 1 : Nat) : Int)

/-- `strLastNonWSChar(lineBuf, lineLength)`: with `lineLength - 1 < 0` the pointer
`&lineBuf[lineLength-1]` is below `lineBuf`, the loop is not entered and
`lineLength - 1` is returned. -/
def strLastNonWSChar (lineBuf : List Char) (lineLength : Int) : Int :=
  match lineLength - 1 with
  | Int.ofNat i => strLastNonWSChar_loop lineBuf i
  | Int.negSucc i => Int.negSucc i

/-! ## `StringTokenise`

`size_type` is an unsigned type whose largest value is `npos`, a parameter; a string
is shorter than `npos`. -/

/-- How a run of `StringTokenise` can end without a result. -/
inductive Failure where
  | out_of_range
  | iterationBound
  deriving DecidableEq, Repr

/-- Offset of the first character that satisfies `q`. -/
def firstIndex (q : Char → Bool) : List Char → Option Nat
  | [] => none
  | c :: cs => if q c then some 0 else (firstIndex q cs).map (· + 1)

/-- `str.find_first_of(delimiters, pos)`: the C++ library function, `npos` when there is no
such position. -/
def find_first_of (npos : Nat) (str delimiters : List Char) (pos : Nat) : Nat :=
  match firstIndex (fun c => delimiters.contains c) (str.drop pos) with
  | some k => pos + k
  | none => npos

/-- `str.find_first_not_of(delimiters, pos)`: the C++ library function, `npos` when there is
no such position. -/
def find_first_not_of (npos : Nat) (str delimiters : List Char) (pos : Nat) : Nat :=
  match firstIndex (fun c => !delimiters.contains c) (str.drop pos) with
  | some k => pos + k
  | none => npos

/-- `a - b` on `size_type`. -/
def sizeSub (npos a b : Nat) : Nat := (a + (npos + 1) - b) % (npos + 1)

/-- `str.substr(pos, n)`: the C++ library function; it throws `out_of_range` when
`pos > size()`. -/
def substr (str : List Char) (pos n : Nat) : Except Failure (List Char) :=
  if pos > str.length then Except.error Failure.out_of_range
  else Except.ok ((str.drop pos).take n)

/-- The `while` loop of `StringTokenise`, with a bound on the number of iterations. -/
def tokeniseLoop (npos : Nat) (str delimiters : List Char) :
    Nat → Nat → Nat → List (List Char) → Except Failure (List (List Char))
  | 0, lastPos, pos, tokens =>
    if npos ≠ pos ∨ npos ≠ lastPos then Except.error Failure.iterationBound
    else Except.ok tokens
  | fuel + 1, lastPos, pos, tokens =>
    if npos ≠ pos ∨ npos ≠ lastPos then
      match substr str lastPos (sizeSub npos pos lastPos) with
      | Except.error e => Except.error e
      | Except.ok token =>
        let lastPos1 := find_first_not_of npos str delimiters pos
        let pos1 := find_first_of npos str delimiters lastPos1
        tokeniseLoop npos str delimiters fuel lastPos1 pos1 (tokens ++ [token])
    else Except.ok tokens

/-- `StringTokenise(str, tokens, delimiters)`: the vector `tokens` after the call.  The
loop is given `str.size()` iterations. -/
def StringTokenise (npos : Nat) (str : List Char) (tokens : List (List Char))
    (delimiters : List Char) : Except Failure (List (List Char)) :=
  let lastPos := find_first_not_of npos str delimiters 0
  let pos := find_first_of npos str delimiters lastPos
  tokeniseLoop npos str delimiters str.length lastPos pos tokens

/-- The tokens in the words of the specification: split `str` at every delimiter
character and discard the empty pieces. -/
def splitDiscardEmpty (str delimiters : List Char) : List (List Char) :=
  (str.splitOnP (fun c => delimiters.contains c)).filter (fun piece => !piece.isEmpty)

/-! ## Reading a string behind a prefix -/

theorem charAt_append_right (p u : List Char) (k : Nat) :
    charAt (p ++ u) (p.length + k) = charAt u k := by
  induction p with
  | nil => simp
  | cons x xs ih =>
    have h : (x :: xs).length + k = (xs.length + k) + 1 := by simp; omega
    rw [h]
    simpa [charAt] using ih

theorem drop_append_right (p u : List Char) (k : Nat) :
    (p ++ u).drop (p.length + k) = u.drop k := by
  induction p with
  | nil => simp
  | cons x xs ih =>
    have h : (x :: xs).length + k = (xs.length + k) + 1 := by simp; omega
    rw [h]
    simp [ih]

theorem tcslen_append (p u : List Char) (hp : NUL ∉ p) :
    tcslen (p ++ u) = p.length + tcslen u := by
  induction p with
  | nil => simp
  | cons x xs ih =>
    have hx : x ≠ NUL := fun h => hp (by simp [h])
    have hxs : NUL ∉ xs := fun h => hp (by simp [h])
    simp [tcslen, hx, ih hxs]
    omega

theorem tcslen_le_length (u : List Char) : tcslen u ≤ u.length := by
  induction u with
  | nil => simp [tcslen]
  | cons x xs ih =>
    by_cases hx : x = NUL <;> simp [tcslen, hx]
    omega

theorem tcslen_eq_length (u : List Char) (hu : NUL ∉ u) : tcslen u = u.length := by
  have := tcslen_append u [] hu
  simpa [tcslen] using this

theorem tcschr_append_found (name rest : List Char) (c : Char)
    (hc : c ∉ name) (hnul : NUL ∉ name) :
    tcschr (name ++ c :: rest) c = some name.length := by
  induction name with
  | nil => simp [tcschr]
  | cons x xs ih =>
    have hx : x ≠ c := fun h => hc (by simp [h])
    have hx0 : x ≠ NUL := fun h => hnul (by simp [h])
    have h1 : c ∉ xs := fun h => hc (by simp [h])
    have h2 : NUL ∉ xs := fun h => hnul (by simp [h])
    simp [tcschr, hx, hx0, ih h1 h2]

theorem tcschr_not_mem (r : List Char) (c : Char) (hc : c ∉ r) (hc0 : c ≠ NUL) :
    tcschr r c = none := by
  induction r with
  | nil => simp [tcschr, hc0]
  | cons x xs ih =>
    have hx : x ≠ c := fun h => hc (by simp [h])
    have h1 : c ∉ xs := fun h => hc (by simp [h])
    by_cases hx0 : x = NUL
    · subst hx0; simp [tcschr, hx]
    · simp [tcschr, hx, hx0, ih h1]

theorem tcsncpy_append (name rest : List Char) (hnul : NUL ∉ name) :
    tcsncpy (name ++ rest) name.length = name := by
  induction name with
  | nil => cases rest <;> simp [tcsncpy]
  | cons x xs ih =>
    have hx0 : x ≠ NUL := fun h => hnul (by simp [h])
    have h2 : NUL ∉ xs := fun h => hnul (by simp [h])
    simp [tcsncpy, hx0, ih h2]

/-! ## The loop behind a prefix, with an output already produced, and its bound -/

/-- The loop body reads the template only from the current index on. -/
theorem loopBody_append_right (cb : Callbacks) (sz : Nat) (p u : List Char) (n j : Nat)
    (o : Output) :
    loopBody cb sz (p ++ u) (p.length + n) ⟨p.length + j, o⟩ =
      ⟨p.length + (loopBody cb sz u n ⟨j, o⟩).i, (loopBody cb sz u n ⟨j, o⟩).out⟩ := by
  have e1 : p.length + j + 1 = p.length + (j + 1) := by omega
  have e2 : p.length + j + 2 = p.length + (j + 2) := by omega
  have e3 : p.length + (j + 1) + 1 = p.length + (j + 2) := by omega
  have a1 : (p.length + (j + 1) = p.length + n) = (j + 1 = n) := by
    apply propext; omega
  have a2 : (p.length + (j + 2) = p.length + n) = (j + 1 + 1 = n) := by
    apply propext; omega
  have a3 : (p.length + (j + 1) ≠ p.length + n) = (j + 1 ≠ n) := by
    apply propext; constructor <;> intro h <;> omega
  simp only [loopBody, matchedProperty, SafeGetNextChar, e1, e2, e3, a1, a2, a3,
    charAt_append_right, drop_append_right]
  split_ifs <;> first | rfl | (cases tcschr (List.drop (j + 2) u) ')' <;> simp [Nat.add_assoc])

/-- The loop reads the template only from the current index on. -/
theorem buildLoop_append_right (cb : Callbacks) (sz : Nat) (p u : List Char) (n : Nat) :
    ∀ (fuel j : Nat) (o : Output),
      buildLoop cb sz (p ++ u) (p.length + n) fuel ⟨p.length + j, o⟩ =
        (buildLoop cb sz u n fuel ⟨j, o⟩).map (fun s => ⟨p.length + s.i, s.out⟩) := by
  intro fuel
  induction fuel with
  | zero =>
    intro j o
    by_cases h : j < n <;> simp [buildLoop, h]
  | succ f ih =>
    intro j o
    by_cases h : j < n
    · simp only [buildLoop, h, Nat.add_lt_add_iff_left, if_true,
        loopBody_append_right, Nat.add_assoc]
      exact ih _ _
    · simp [buildLoop, h]

/-- The body only appends to what was produced before. -/
theorem loopBody_out (cb : Callbacks) (sz : Nat) (str : List Char) (len i : Nat)
    (o : Output) :
    loopBody cb sz str len ⟨i, o⟩ =
      ⟨(loopBody cb sz str len ⟨i, Output.empty⟩).i,
        o.append (loopBody cb sz str len ⟨i, Output.empty⟩).out⟩ := by
  simp only [loopBody, matchedProperty]
  split_ifs <;>
    first
      | (simp [Output.append, Output.empty, Output.push, Output.formatChar]; done)
      | (cases tcschr (List.drop (i + 2) str) ')' <;>
          simp [Output.append, Output.empty, Output.formatKey])

/-- The loop only appends to what was produced before. -/
theorem buildLoop_out (cb : Callbacks) (sz : Nat) (str : List Char) (len : Nat) :
    ∀ (fuel i : Nat) (o : Output),
      buildLoop cb sz str len fuel ⟨i, o⟩ =
        (buildLoop cb sz str len fuel ⟨i, Output.empty⟩).map
          (fun s => ⟨s.i, o.append s.out⟩) := by
  intro fuel
  induction fuel with
  | zero =>
    intro i o
    by_cases h : i < len <;> simp [buildLoop, h, Output.append, Output.empty]
  | succ f ih =>
    intro i o
    by_cases h : i < len
    · simp only [buildLoop, h, if_true]
      rw [loopBody_out, ih]
      conv_rhs => rw [ih]
      simp [Option.map_map, Function.comp_def, Output.append, List.append_assoc]
    · simp [buildLoop, h, Output.append, Output.empty]

/-- The loop index never goes back in the body. -/
theorem loopBody_index_le (cb : Callbacks) (sz : Nat) (str : List Char) (len : Nat)
    (s : LoopState) : s.i ≤ (loopBody cb sz str len s).i := by
  simp only [loopBody, matchedProperty]
  split_ifs <;>
    first
      | exact Nat.le_refl _
      | exact Nat.le_succ _
      | (cases tcschr (List.drop (s.i + 2) str) ')' <;> simp)

/-- The loop ends within `len - i` iterations. -/
theorem buildLoop_total (cb : Callbacks) (sz : Nat) (str : List Char) (len : Nat) :
    ∀ (fuel : Nat) (s : LoopState), len ≤ s.i + fuel →
      ∃ r, buildLoop cb sz str len fuel s = some r := by
  intro fuel
  induction fuel with
  | zero =>
    intro s h
    have : ¬ s.i < len := by omega
    exact ⟨s, by simp [buildLoop, this]⟩
  | succ f ih =>
    intro s h
    by_cases hlt : s.i < len
    · simp only [buildLoop, hlt, if_true]
      apply ih
      have := loopBody_index_le cb sz str len s
      simp only
      omega
    · exact ⟨s, by simp [buildLoop, hlt]⟩

/-- A run that ended does not depend on the iterations left over. -/
theorem buildLoop_fuel (cb : Callbacks) (sz : Nat) (str : List Char) (len : Nat) :
    ∀ (fuel k : Nat) (s r : LoopState), buildLoop cb sz str len fuel s = some r →
      buildLoop cb sz str len (fuel + k) s = some r := by
  intro fuel
  induction fuel with
  | zero =>
    intro k s r h
    by_cases hlt : s.i < len
    · simp [buildLoop, hlt] at h
    · cases k <;> simpa [buildLoop, hlt] using h
  | succ f ih =>
    intro k s r h
    by_cases hlt : s.i < len
    · have e : f + 1 + k = (f + k) + 1 := by omega
      rw [e]
      simp only [buildLoop, hlt, if_true] at h ⊢
      exact ih k _ _ h
    · have e : f + 1 + k = (f + k) + 1 := by omega
      rw [e]
      simpa [buildLoop, hlt] using h

/-- `Build` always returns: the loop ends within `len` iterations. -/
theorem Build_total (cb : Callbacks) (sz : Nat) (str : List Char) :
    ∃ r, Build cb sz str = some r := by
  obtain ⟨r, hr⟩ := buildLoop_total cb sz str (tcslen str) (tcslen str) ⟨0, Output.empty⟩
    (by simp)
  exact ⟨r.out, by simp [Build, hr]⟩

/-- One iteration that consumes the non-empty prefix `p` of the template `p ++ u`
and produces `o`: the rest of the run is the run of `Build` on `u`. -/
theorem Build_step (cb : Callbacks) (sz : Nat) (p u : List Char) (o : Output)
    (hp : NUL ∉ p) (k : Nat) (hk : p.length = k + 1)
    (hbody : loopBody cb sz (p ++ u) (p.length + tcslen u) ⟨0, Output.empty⟩ = ⟨k, o⟩) :
    ∃ r, Build cb sz u = some r ∧ Build cb sz (p ++ u) = some (o.append r) := by
  obtain ⟨s, hs⟩ := buildLoop_total cb sz u (tcslen u) (tcslen u) ⟨0, Output.empty⟩
    (by simp)
  refine ⟨s.out, by simp [Build, hs], ?_⟩
  have hs2 := buildLoop_fuel cb sz u (tcslen u) (tcslen u) k _ _ hs
  have e : p.length + tcslen u = (tcslen u + k) + 1 := by omega
  have hpos : 0 < p.length + tcslen u := by omega
  simp only [Build, tcslen_append p u hp]
  conv_lhs => rw [e]
  simp only [buildLoop]
  rw [← e, if_pos hpos, hbody]
  have := buildLoop_append_right cb sz p u (tcslen u) (tcslen u + k) 0 o
  rw [← hk]
  simp only [Nat.add_zero] at this
  rw [this, buildLoop_out, hs2]
  simp

/-! ## One iteration at the head of a template -/

/-- A character other than `%`, `$` and the terminator is copied. -/
theorem Build_literal (cb : Callbacks) (sz : Nat) (c : Char) (u : List Char)
    (h1 : c ≠ '%') (h2 : c ≠ '$') (h0 : c ≠ NUL) :
    ∃ r, Build cb sz u = some r ∧
      Build cb sz (c :: u) = some ⟨c :: r.m_string, r.calls⟩ := by
  have hb : loopBody cb sz ([c] ++ u) ([c].length + tcslen u) ⟨0, Output.empty⟩ =
      ⟨0, Output.empty.push c⟩ := by
    simp [loopBody, charAt, h1, h2]
  obtain ⟨r, hr, h⟩ := Build_step cb sz [c] u _ (by simpa using Ne.symm h0) 0 rfl hb
  exact ⟨r, hr, by simpa [Output.append, Output.push, Output.empty] using h⟩

/-- A template of ordinary characters is copied and no callback is invoked. -/
theorem Build_plain (cb : Callbacks) (sz : Nat) (s : List Char)
    (h0 : NUL ∉ s) (h1 : '%' ∉ s) (h2 : '$' ∉ s) :
    Build cb sz s = some ⟨s, []⟩ := by
  induction s with
  | nil => rfl
  | cons c cs ih =>
    simp only [List.mem_cons, not_or] at h0 h1 h2
    obtain ⟨r, hr, h⟩ := Build_literal cb sz c cs (Ne.symm h1.1) (Ne.symm h2.1)
      (Ne.symm h0.1)
    rw [ih h0.2 h1.2 h2.2] at hr
    cases hr
    exact h

/-- Ordinary characters in front of a template are copied in front of its expansion. -/
theorem Build_plain_append (cb : Callbacks) (sz : Nat) (t u : List Char) (r : Output)
    (h0 : NUL ∉ t) (h1 : '%' ∉ t) (h2 : '$' ∉ t) (hu : Build cb sz u = some r) :
    Build cb sz (t ++ u) = some ⟨t ++ r.m_string, r.calls⟩ := by
  induction t with
  | nil => simpa using hu
  | cons c cs ih =>
    simp only [List.mem_cons, not_or] at h0 h1 h2
    obtain ⟨q, hq, h⟩ := Build_literal cb sz c (cs ++ u) (Ne.symm h1.1) (Ne.symm h2.1)
      (Ne.symm h0.1)
    rw [ih h0.2 h1.2 h2.2] at hq
    cases hq
    simpa using h

/-- `%c`, with `c` neither `%` nor the terminator, invokes `OnFormatChar(c)`. -/
theorem Build_percent_char (cb : Callbacks) (sz : Nat) (c : Char) (u : List Char)
    (h1 : c ≠ '%') (h0 : c ≠ NUL) :
    ∃ r, Build cb sz u = some r ∧
      Build cb sz ('%' :: c :: u) =
        some ⟨cb.OnFormatChar c ++ r.m_string, Call.formatChar c :: r.calls⟩ := by
  have hb : loopBody cb sz (['%', c] ++ u) (['%', c].length + tcslen u) ⟨0, Output.empty⟩ =
      ⟨1, Output.empty.formatChar cb c⟩ := by
    have a1 : ¬ (1 = 2 + tcslen u) := by omega
    simp [loopBody, SafeGetNextChar, charAt, h1, h0, a1]
  have hn : NUL ∉ ['%', c] := by
    simp only [List.mem_cons, List.mem_singleton, List.not_mem_nil, or_false, not_or]
    exact ⟨by decide, Ne.symm h0⟩
  obtain ⟨r, hr, h⟩ := Build_step cb sz ['%', c] u _ hn 1 rfl hb
  exact ⟨r, hr, by simpa [Output.append, Output.formatChar, Output.empty] using h⟩

/-- `%%` gives one `%`. -/
theorem Build_percent_percent (cb : Callbacks) (sz : Nat) (u : List Char) :
    ∃ r, Build cb sz u = some r ∧
      Build cb sz ('%' :: '%' :: u) = some ⟨'%' :: r.m_string, r.calls⟩ := by
  have hb : loopBody cb sz (['%', '%'] ++ u) (['%', '%'].length + tcslen u)
      ⟨0, Output.empty⟩ = ⟨1, Output.empty.push '%'⟩ := by
    have a0 : ¬ ('%' = NUL) := by decide
    have a1 : ¬ (1 = 2 + tcslen u) := by omega
    simp [loopBody, SafeGetNextChar, charAt, a0, a1]
  obtain ⟨r, hr, h⟩ := Build_step cb sz ['%', '%'] u _ (by decide) 1 rfl hb
  exact ⟨r, hr, by simpa [Output.append, Output.push, Output.empty] using h⟩

/-- `$(name)` invokes `OnFormatKey(name)` and the loop goes on behind the `)`. -/
theorem Build_key (cb : Callbacks) (name u : List Char)
    (hclose : ')' ∉ name) (hnul : NUL ∉ name) :
    ∃ r, Build cb 1 u = some r ∧
      Build cb 1 ('$' :: '(' :: (name ++ ')' :: u)) =
        some ⟨cb.OnFormatKey name ++ r.m_string, Call.formatKey name :: r.calls⟩ := by
  have hb : loopBody cb 1 (('$' :: '(' :: (name ++ [')'])) ++ u)
      (('$' :: '(' :: (name ++ [')'])).length + tcslen u) ⟨0, Output.empty⟩ =
      ⟨name.length + 2, Output.empty.formatKey cb name⟩ := by
    have e : ('$' :: '(' :: (name ++ [')'])) ++ u = '$' :: '(' :: (name ++ ')' :: u) := by
      simp
    have h3 : ¬ ('(' = '$') := by decide
    rw [e]
    simp [loopBody, matchedProperty, charAt, h3, tcschr_append_found name u ')' hclose hnul,
      tcsncpy_append name (')' :: u) hnul]
    rw [if_neg (by omega), Nat.add_comm]
  have hn : NUL ∉ '$' :: '(' :: (name ++ [')']) := by
    simp only [List.mem_cons, List.mem_append, List.mem_singleton, List.not_mem_nil,
      or_false, not_or]
    exact ⟨by decide, by decide, hnul, by decide⟩
  obtain ⟨r, hr, h⟩ := Build_step cb 1 _ u _ hn (name.length + 2) (by simp) hb
  exact ⟨r, hr, by simpa [Output.append, Output.formatKey, Output.empty] using h⟩

/-- `$$` in front of `(` gives one `$`, and the loop goes on at the `(`. -/
theorem Build_dollar_dollar_paren (cb : Callbacks) (sz : Nat) (u : List Char) :
    ∃ r, Build cb sz ('(' :: u) = some r ∧
      Build cb sz ('$' :: '$' :: '(' :: u) = some ⟨'$' :: r.m_string, r.calls⟩ := by
  have hb : loopBody cb sz (['$', '$'] ++ '(' :: u) (['$', '$'].length + tcslen ('(' :: u))
      ⟨0, Output.empty⟩ = ⟨1, Output.empty.push '$'⟩ := by
    have h3 : ¬ ('$' = '%') := by decide
    have h4 : ¬ ('(' = NUL) := by decide
    have a1 : ¬ (1 = 2 + (tcslen u + 1)) := by omega
    have a2 : ¬ (2 = 2 + (tcslen u + 1)) := by omega
    simp [loopBody, SafeGetNextChar, charAt, h3, h4, tcslen, a1, a2]
  obtain ⟨r, hr, h⟩ := Build_step cb sz ['$', '$'] ('(' :: u) _ (by decide) 1 rfl hb
  exact ⟨r, hr, by simpa [Output.append, Output.push, Output.empty] using h⟩

/-- `$` in front of a character other than `(`, `$` and the terminator is copied. -/
theorem Build_dollar_other (cb : Callbacks) (sz : Nat) (c : Char) (u : List Char)
    (h1 : c ≠ '(') (h2 : c ≠ '$') (h0 : c ≠ NUL) :
    ∃ r, Build cb sz (c :: u) = some r ∧
      Build cb sz ('$' :: c :: u) = some ⟨'$' :: r.m_string, r.calls⟩ := by
  have hb : loopBody cb sz (['$'] ++ c :: u) (['$'].length + tcslen (c :: u))
      ⟨0, Output.empty⟩ = ⟨0, Output.empty.push '$'⟩ := by
    have h3 : ¬ ('$' = '%') := by decide
    simp [loopBody, charAt, h3, h1, h2, h0, tcslen]
  obtain ⟨r, hr, h⟩ := Build_step cb sz ['$'] (c :: u) _ (by decide) 0 rfl hb
  exact ⟨r, hr, by simpa [Output.append, Output.push, Output.empty] using h⟩

/-- `$(` with no `)` behind it: the `$` is consumed, nothing is appended, and the loop
goes on at the `(`. -/
theorem Build_dollar_paren_open (cb : Callbacks) (sz : Nat) (r : List Char)
    (hclose : ')' ∉ r) :
    ∃ q, Build cb sz r = some q ∧
      Build cb sz ('$' :: '(' :: r) = some ⟨'(' :: q.m_string, q.calls⟩ := by
  have hb : loopBody cb sz (['$'] ++ '(' :: r) (['$'].length + tcslen ('(' :: r))
      ⟨0, Output.empty⟩ = ⟨0, Output.empty⟩ := by
    have h3 : ¬ ('$' = '%') := by decide
    have h4 : ¬ ('(' = '$') := by decide
    have h5 : ¬ ('(' = NUL) := by decide
    have h6 : ¬ (')' = NUL) := by decide
    simp [loopBody, matchedProperty, charAt, h3, h4, h5, tcslen,
      tcschr_not_mem r ')' hclose h6]
  obtain ⟨q1, hq1, h⟩ := Build_step cb sz ['$'] ('(' :: r) _ (by decide) 0 rfl hb
  obtain ⟨q, hq, h2⟩ := Build_literal cb sz '(' r (by decide) (by decide) (by decide)
  rw [h2] at hq1
  cases hq1
  exact ⟨q, hq, by simpa [Output.append, Output.empty] using h⟩

/-! ## Templates without a closing parenthesis -/

/-- Without a `)` in the template the body never invokes `OnFormatKey`. -/
theorem loopBody_no_key (cb : Callbacks) (sz : Nat) (str : List Char) (len : Nat)
    (s : LoopState) (hclose : ')' ∉ str)
    (hs : ∀ key, Call.formatKey key ∉ s.out.calls) :
    ∀ key, Call.formatKey key ∉ (loopBody cb sz str len s).out.calls := by
  have h6 : ¬ (')' = NUL) := by decide
  have hd : tcschr (str.drop (s.i + 2)) ')' = none :=
    tcschr_not_mem _ _ (fun h => hclose (List.mem_of_mem_drop h)) h6
  intro key
  simp only [loopBody, matchedProperty, hd]
  split_ifs <;> simp [Output.push, Output.formatChar, hs key]

/-- Without a `)` in the template the loop never invokes `OnFormatKey`. -/
theorem buildLoop_no_key (cb : Callbacks) (sz : Nat) (str : List Char) (len : Nat)
    (hclose : ')' ∉ str) :
    ∀ (fuel : Nat) (s r : LoopState), (∀ key, Call.formatKey key ∉ s.out.calls) →
      buildLoop cb sz str len fuel s = some r → ∀ key, Call.formatKey key ∉ r.out.calls := by
  intro fuel
  induction fuel with
  | zero =>
    intro s r hs h
    by_cases hlt : s.i < len
    · simp [buildLoop, hlt] at h
    · simp only [buildLoop, hlt, if_false, Option.some.injEq] at h
      subst h
      exact hs
  | succ f ih =>
    intro s r hs h
    by_cases hlt : s.i < len
    · simp only [buildLoop, hlt, if_true] at h
      exact ih ⟨(loopBody cb sz str len s).i + 1, (loopBody cb sz str len s).out⟩ r
        (loopBody_no_key cb sz str len s hclose hs) h
    · simp only [buildLoop, hlt, if_false, Option.some.injEq] at h
      subst h
      exact hs

/-- Without a `)` in the template `Build` never invokes `OnFormatKey`. -/
theorem Build_no_key (cb : Callbacks) (sz : Nat) (str : List Char) (r : Output)
    (hclose : ')' ∉ str) (h : Build cb sz str = some r) :
    ∀ key, Call.formatKey key ∉ r.calls := by
  simp only [Build, Option.map_eq_some'] at h
  obtain ⟨s, hs, rfl⟩ := h
  exact buildLoop_no_key cb sz str _ hclose _ _ _ (by simp [Output.empty]) hs

/-! ## The claims -/

/-- C1. A key reference `$(name)`, `name` without `)` (and, being part of a C string,
without the terminator), with `TCHAR` one byte wide: `Build` on `$(name)` followed by
`u` produces what `OnFormatKey(name)` appends followed by the expansion of `u`; the
callback log starts with the one invocation `OnFormatKey(name)`, and no character of
`$(name)` is copied.  With `OnFormatKey` a lookup in the dictionary `name ↦ Alice`,
`Build("Hello $(name)!")` is `Hello Alice!`. -/
theorem Build_key_reference (cb : Callbacks) (name u : List Char)
    (hclose : ')' ∉ name) (hnul : NUL ∉ name) :
    (∃ r, Build cb 1 u = some r ∧
      Build cb 1 ("$(".toList ++ name ++ ")".toList ++ u) =
        some ⟨cb.OnFormatKey name ++ r.m_string, Call.formatKey name :: r.calls⟩) ∧
    Build (dictionaryCallbacks [("name".toList, "Alice".toList)]) 1
        "Hello $(name)!".toList =
      some ⟨"Hello Alice!".toList, [Call.formatKey "name".toList]⟩ := by
  refine ⟨?_, by decide⟩
  obtain ⟨r, hr, h⟩ := Build_key cb name u hclose hnul
  refine ⟨r, hr, ?_⟩
  have e : "$(".toList ++ name ++ ")".toList ++ u = '$' :: '(' :: (name ++ ')' :: u) := by
    show ['$', '('] ++ name ++ [')'] ++ u = _
    simp
  rw [e]
  exact h

/-- C1 at `name = "name"`, `u = "!"` with the dictionary callbacks. -/
theorem Build_key_reference_witness :
    (')' ∉ "name".toList ∧ NUL ∉ "name".toList) ∧
    ((∃ r, Build (dictionaryCallbacks [("name".toList, "Alice".toList)]) 1 "!".toList =
          some r ∧
        Build (dictionaryCallbacks [("name".toList, "Alice".toList)]) 1
            ("$(".toList ++ "name".toList ++ ")".toList ++ "!".toList) =
          some ⟨(dictionaryCallbacks [("name".toList, "Alice".toList)]).OnFormatKey
              "name".toList ++ r.m_string, Call.formatKey "name".toList :: r.calls⟩) ∧
      Build (dictionaryCallbacks [("name".toList, "Alice".toList)]) 1
          "Hello $(name)!".toList =
        some ⟨"Hello Alice!".toList, [Call.formatKey "name".toList]⟩) :=
  ⟨⟨by decide, by decide⟩,
    Build_key_reference (dictionaryCallbacks [("name".toList, "Alice".toList)])
      "name".toList "!".toList (by decide) (by decide)⟩

/-- C2. A template (a C string, so without the terminator) that holds neither `%`
nor `$` is returned unchanged, whatever the callbacks and the width of `TCHAR`, and no
callback is invoked. -/
theorem Build_plain_text (cb : Callbacks) (sz : Nat) (s : List Char)
    (h0 : NUL ∉ s) (h1 : '%' ∉ s) (h2 : '$' ∉ s) :
    Build cb sz s = some ⟨s, []⟩ :=
  Build_plain cb sz s h0 h1 h2

/-- C2 at the template `plain text (1)` with the base callbacks. -/
theorem Build_plain_text_witness :
    (NUL ∉ "plain text (1)".toList ∧ '%' ∉ "plain text (1)".toList ∧
      '$' ∉ "plain text (1)".toList) ∧
    Build baseCallbacks 1 "plain text (1)".toList = some ⟨"plain text (1)".toList, []⟩ :=
  ⟨⟨by decide, by decide, by decide⟩,
    Build_plain_text baseCallbacks 1 "plain text (1)".toList (by decide) (by decide)
      (by decide)⟩

/-- C3. `%c` with `c` neither `%` nor the terminator: `Build` on `%c` followed by `u`
produces what `OnFormatChar(c)` appends followed by the expansion of `u`; the callback
log starts with the one invocation `OnFormatChar(c)`, neither `%` nor `c` is copied, and
`c` does not start another placeholder: `%$(x)` gives what `OnFormatChar('$')` appends
followed by the literal text `(x)`. -/
theorem Build_format_char (cb : Callbacks) (sz : Nat) (c : Char) (u : List Char)
    (h1 : c ≠ '%') (h0 : c ≠ NUL) :
    (∃ r, Build cb sz u = some r ∧
      Build cb sz ('%' :: c :: u) =
        some ⟨cb.OnFormatChar c ++ r.m_string, Call.formatChar c :: r.calls⟩) ∧
    Build cb sz "%$(x)".toList =
      some ⟨cb.OnFormatChar '$' ++ "(x)".toList, [Call.formatChar '$']⟩ := by
  refine ⟨Build_percent_char cb sz c u h1 h0, ?_⟩
  obtain ⟨r, hr, h⟩ := Build_percent_char cb sz '$' "(x)".toList (by decide) (by decide)
  rw [Build_plain cb sz "(x)".toList (by decide) (by decide) (by decide)] at hr
  cases hr
  exact h

/-- C3 at `c = 'd'`, `u = "!"` with callbacks that double the format character. -/
theorem Build_format_char_witness :
    ('d' ≠ '%' ∧ 'd' ≠ NUL) ∧
    ((∃ r, Build ⟨fun c => [c, c], fun _ => []⟩ 1 "!".toList = some r ∧
        Build ⟨fun c => [c, c], fun _ => []⟩ 1 ('%' :: 'd' :: "!".toList) =
          some ⟨(⟨fun c => [c, c], fun _ => []⟩ : Callbacks).OnFormatChar 'd' ++ r.m_string,
            Call.formatChar 'd' :: r.calls⟩) ∧
      Build ⟨fun c => [c, c], fun _ => []⟩ 1 "%$(x)".toList =
        some ⟨(⟨fun c => [c, c], fun _ => []⟩ : Callbacks).OnFormatChar '$' ++ "(x)".toList,
          [Call.formatChar '$']⟩) :=
  ⟨⟨by decide, by decide⟩,
    Build_format_char ⟨fun c => [c, c], fun _ => []⟩ 1 'd' "!".toList (by decide)
      (by decide)⟩

/-- C4. `%%` followed by `u` gives one `%` followed by the expansion of `u`, and the
callback log is that of `u` alone: `OnFormatChar` is not invoked for the pair.
`Build("100%%")` is `100%`. -/
theorem Build_percent_escape (cb : Callbacks) (sz : Nat) (u : List Char) :
    (∃ r, Build cb sz u = some r ∧
      Build cb sz ("%%".toList ++ u) = some ⟨'%' :: r.m_string, r.calls⟩) ∧
    Build cb sz "100%%".toList = some ⟨"100%".toList, []⟩ :=
  ⟨Build_percent_percent cb sz u, rfl⟩

/-- C5. A `%` that is the last character of the template is copied: for `t` without
`%` and `$` (and without the terminator), `Build` on `t` followed by `%` returns
it unchanged and invokes no callback.  `Build("abc%")` is `abc%`. -/
theorem Build_trailing_percent (cb : Callbacks) (sz : Nat) (t : List Char)
    (h0 : NUL ∉ t) (h1 : '%' ∉ t) (h2 : '$' ∉ t) :
    Build cb sz (t ++ "%".toList) = some ⟨t ++ "%".toList, []⟩ ∧
    Build cb sz "abc%".toList = some ⟨"abc%".toList, []⟩ :=
  ⟨Build_plain_append cb sz t "%".toList ⟨"%".toList, []⟩ h0 h1 h2 rfl, rfl⟩

/-- C5 at `t = "abc"` with the base callbacks. -/
theorem Build_trailing_percent_witness :
    (NUL ∉ "abc".toList ∧ '%' ∉ "abc".toList ∧ '$' ∉ "abc".toList) ∧
    (Build baseCallbacks 1 ("abc".toList ++ "%".toList) =
        some ⟨"abc".toList ++ "%".toList, []⟩ ∧
      Build baseCallbacks 1 "abc%".toList = some ⟨"abc%".toList, []⟩) :=
  ⟨⟨by decide, by decide, by decide⟩,
    Build_trailing_percent baseCallbacks 1 "abc".toList (by decide) (by decide) (by decide)⟩

/-- C6, as stated, fails: with the base callbacks `Build("abc$(oops")` is `abc(oops`,
not `abc`, and `Build("$(unterminated")` is `(unterminated`, not the empty string. -/
theorem Build_unterminated_not_dropped :
    Build baseCallbacks 1 "abc$(oops".toList = some ⟨"abc(oops".toList, []⟩ ∧
    Build baseCallbacks 1 "abc$(oops".toList ≠ some ⟨"abc".toList, []⟩ ∧
    Build baseCallbacks 1 "$(unterminated".toList = some ⟨"(unterminated".toList, []⟩ ∧
    Build baseCallbacks 1 "$(unterminated".toList ≠ some ⟨"".toList, []⟩ := by
  decide

/-- C6, amended. An unterminated key reference loses only its `$`: for `t` without
`%` and `$` (and without the terminator) and `r` without `)`, `Build` on `t`, `$(`
and `r` returns `t`, then `(`, then the expansion of `r` as an ordinary template; the
callbacks invoked are those of the expansion of `r`, and `OnFormatKey` is not among
them.  With the base callbacks `Build("abc$(oops")` is `abc(oops` and
`Build("$(unterminated")` is `(unterminated`. -/
theorem Build_unterminated_reference (cb : Callbacks) (sz : Nat) (t r : List Char)
    (h0 : NUL ∉ t) (h1 : '%' ∉ t) (h2 : '$' ∉ t) (hclose : ')' ∉ r) :
    (∃ q, Build cb sz r = some q ∧
      Build cb sz (t ++ "$(".toList ++ r) = some ⟨t ++ "(".toList ++ q.m_string, q.calls⟩ ∧
      ∀ key, Call.formatKey key ∉ q.calls) ∧
    Build baseCallbacks 1 "abc$(oops".toList = some ⟨"abc(oops".toList, []⟩ ∧
    Build baseCallbacks 1 "$(unterminated".toList = some ⟨"(unterminated".toList, []⟩ := by
  refine ⟨?_, by decide, by decide⟩
  obtain ⟨q, hq, h⟩ := Build_dollar_paren_open cb sz r hclose
  refine ⟨q, hq, ?_, Build_no_key cb sz r q hclose hq⟩
  have e : t ++ "$(".toList ++ r = t ++ '$' :: '(' :: r := by
    show t ++ ['$', '('] ++ r = _
    simp
  rw [e, Build_plain_append cb sz t _ _ h0 h1 h2 h]
  show _ = some ⟨t ++ ['('] ++ q.m_string, q.calls⟩
  simp

/-- C6, amended, at `t = "abc"`, `r = "oo%ps"` with callbacks that double the format
character. -/
theorem Build_unterminated_reference_witness :
    (NUL ∉ "abc".toList ∧ '%' ∉ "abc".toList ∧ '$' ∉ "abc".toList ∧
      ')' ∉ "oo%ps".toList) ∧
    ((∃ q, Build ⟨fun c => [c, c], fun _ => []⟩ 1 "oo%ps".toList = some q ∧
        Build ⟨fun c => [c, c], fun _ => []⟩ 1 ("abc".toList ++ "$(".toList ++ "oo%ps".toList) =
          some ⟨"abc".toList ++ "(".toList ++ q.m_string, q.calls⟩ ∧
        ∀ key, Call.formatKey key ∉ q.calls) ∧
      Build baseCallbacks 1 "abc$(oops".toList = some ⟨"abc(oops".toList, []⟩ ∧
      Build baseCallbacks 1 "$(unterminated".toList =
        some ⟨"(unterminated".toList, []⟩) :=
  ⟨⟨by decide, by decide, by decide, by decide⟩,
    Build_unterminated_reference ⟨fun c => [c, c], fun _ => []⟩ 1 "abc".toList
      "oo%ps".toList (by decide) (by decide) (by decide) (by decide)⟩

/-- C7, as stated, fails: with `OnFormatKey` a lookup in the dictionary `x ↦ VALUE`,
`Build("$$(x)")` is `$(x)` with no callback invoked, not `$VALUE`; and `Build("$$(")`
is `$(`. -/
theorem Build_dollar_dollar_not_key :
    Build (dictionaryCallbacks [("x".toList, "VALUE".toList)]) 1 "$$(x)".toList =
      some ⟨"$(x)".toList, []⟩ ∧
    (Build (dictionaryCallbacks [("x".toList, "VALUE".toList)]) 1 "$$(x)".toList).map
        Output.m_string ≠
      some ("$".toList ++
        (dictionaryCallbacks [("x".toList, "VALUE".toList)]).OnFormatKey "x".toList) ∧
    (Build (dictionaryCallbacks [("x".toList, "VALUE".toList)]) 1 "$$(".toList).map
        Output.m_string = some "$(".toList := by
  decide

/-- C7, amended. `Build` on `$$(`, `name` and `)` returns `$(` followed by the
expansion of `name)` as an ordinary template, the callbacks invoked being those of that
expansion; for a `name` without `%`, `$` (and the terminator) that is `$(name)`
itself with no callback invoked.  `Build("$$(x)")` is `$(x)` and `Build("$$(")` is
`$(`, whatever the callbacks. -/
theorem Build_dollar_escape_named (cb : Callbacks) (sz : Nat) (name : List Char) :
    (∃ r, Build cb sz (name ++ ")".toList) = some r ∧
      Build cb sz ("$$(".toList ++ name ++ ")".toList) =
        some ⟨"$(".toList ++ r.m_string, r.calls⟩) ∧
    (NUL ∉ name → '%' ∉ name → '$' ∉ name →
      Build cb sz ("$$(".toList ++ name ++ ")".toList) =
        some ⟨"$(".toList ++ name ++ ")".toList, []⟩) ∧
    Build cb sz "$$(x)".toList = some ⟨"$(x)".toList, []⟩ ∧
    Build cb sz "$$(".toList = some ⟨"$(".toList, []⟩ := by
  have key : ∀ v : List Char, ∃ r, Build cb sz v = some r ∧
      Build cb sz ("$$(".toList ++ v) = some ⟨"$(".toList ++ r.m_string, r.calls⟩ := by
    intro v
    obtain ⟨q, hq, h⟩ := Build_dollar_dollar_paren cb sz v
    obtain ⟨r, hr, h2⟩ := Build_literal cb sz '(' v (by decide) (by decide) (by decide)
    rw [h2] at hq
    cases hq
    exact ⟨r, hr, h⟩
  refine ⟨?_, ?_, rfl, rfl⟩
  · obtain ⟨r, hr, h⟩ := key (name ++ ")".toList)
    exact ⟨r, hr, by simpa [List.append_assoc] using h⟩
  · intro h0 h1 h2
    obtain ⟨r, hr, h⟩ := key (name ++ ")".toList)
    have hp : Build cb sz (name ++ ")".toList) = some ⟨name ++ ")".toList, []⟩ := by
      have := Build_plain_append cb sz name ")".toList ⟨")".toList, []⟩ h0 h1 h2 rfl
      simpa using this
    rw [hp] at hr
    cases hr
    simpa [List.append_assoc] using h

/-- C7, amended, at `name = "user name"` with the dictionary callbacks
`user name ↦ VALUE`: the text `$(user name)` is returned and no callback is invoked. -/
theorem Build_dollar_escape_named_witness :
    (NUL ∉ "user name".toList ∧ '%' ∉ "user name".toList ∧ '$' ∉ "user name".toList) ∧
    Build (dictionaryCallbacks [("user name".toList, "VALUE".toList)]) 1
        ("$$(".toList ++ "user name".toList ++ ")".toList) =
      some ⟨"$(".toList ++ "user name".toList ++ ")".toList, []⟩ :=
  ⟨⟨by decide, by decide, by decide⟩,
    (Build_dollar_escape_named (dictionaryCallbacks [("user name".toList, "VALUE".toList)]) 1
      "user name".toList).2.1 (by decide) (by decide) (by decide)⟩

/-- C8. `$$(` followed by `u` gives one `$` followed by what `(` followed by `u`
gives as an ordinary template, that is `$(` followed by the expansion of `u`; the
callbacks invoked are exactly those of the expansion of `u`, so the `$$(` itself
invokes none. -/
theorem Build_dollar_escape (cb : Callbacks) (sz : Nat) (u : List Char) :
    ∃ q r, Build cb sz ("(".toList ++ u) = some q ∧ Build cb sz u = some r ∧
      Build cb sz ("$$(".toList ++ u) = some ⟨"$".toList ++ q.m_string, q.calls⟩ ∧
      Build cb sz ("$$(".toList ++ u) = some ⟨"$(".toList ++ r.m_string, r.calls⟩ := by
  obtain ⟨q, hq, h⟩ := Build_dollar_dollar_paren cb sz u
  obtain ⟨r, hr, h2⟩ := Build_literal cb sz '(' u (by decide) (by decide) (by decide)
  refine ⟨q, r, hq, hr, h, ?_⟩
  rw [h2] at hq
  cases hq
  exact h

/-- C9, evaluated on the code: with the base callbacks `Build("$$a")` is `$a` and
`Build("$$")` is `$` (the first `$` is lost), and with `OnFormatKey` a lookup in the
dictionary `a ↦ VALUE`, `Build("$$a)")` is `VALUE`, `OnFormatKey("a")` being invoked
on a template without `$(`. -/
theorem Build_dollar_dollar_falls_through :
    Build baseCallbacks 1 "$$a".toList = some ⟨"$a".toList, []⟩ ∧
    Build baseCallbacks 1 "$$".toList = some ⟨"$".toList, []⟩ ∧
    Build (dictionaryCallbacks [("a".toList, "VALUE".toList)]) 1 "$$a)".toList =
      some ⟨"VALUE".toList, [Call.formatKey "a".toList]⟩ := by
  decide

/-- C10. A `$` that starts no reference is copied: in front of a character `c` other
than `(` and `$` (and the terminator), `Build` on `$`, `c` and `u` gives `$`
followed by the expansion of `c` and `u`, with the callbacks of that expansion; and a
`$` that is the last character, behind a `t` without `%` and `$` (and the
terminator), is copied with no callback invoked. -/
theorem Build_dollar_literal (cb : Callbacks) (sz : Nat) (c : Char) (u t : List Char)
    (hc1 : c ≠ '(') (hc2 : c ≠ '$') (hc0 : c ≠ NUL)
    (h0 : NUL ∉ t) (h1 : '%' ∉ t) (h2 : '$' ∉ t) :
    (∃ r, Build cb sz (c :: u) = some r ∧
      Build cb sz ('$' :: c :: u) = some ⟨'$' :: r.m_string, r.calls⟩) ∧
    Build cb sz (t ++ "$".toList) = some ⟨t ++ "$".toList, []⟩ :=
  ⟨Build_dollar_other cb sz c u hc1 hc2 hc0,
    Build_plain_append cb sz t "$".toList ⟨"$".toList, []⟩ h0 h1 h2 rfl⟩

/-- C10 at `c = '%'`, `u = "d!"`, `t = "cost"` with callbacks that double the format
character. -/
theorem Build_dollar_literal_witness :
    ('%' ≠ '(' ∧ '%' ≠ '$' ∧ '%' ≠ NUL ∧
      NUL ∉ "cost".toList ∧ '%' ∉ "cost".toList ∧ '$' ∉ "cost".toList) ∧
    ((∃ r, Build ⟨fun c => [c, c], fun _ => []⟩ 1 ('%' :: "d!".toList) = some r ∧
        Build ⟨fun c => [c, c], fun _ => []⟩ 1 ('$' :: '%' :: "d!".toList) =
          some ⟨'$' :: r.m_string, r.calls⟩) ∧
      Build ⟨fun c => [c, c], fun _ => []⟩ 1 ("cost".toList ++ "$".toList) =
        some ⟨"cost".toList ++ "$".toList, []⟩) :=
  ⟨⟨by decide, by decide, by decide, by decide, by decide, by decide⟩,
    Build_dollar_literal ⟨fun c => [c, c], fun _ => []⟩ 1 '%' "d!".toList "cost".toList
      (by decide) (by decide) (by decide) (by decide) (by decide) (by decide)⟩

/-! ## The base callbacks: the result is a subsequence of the template -/

theorem take_succ_charAt (str : List Char) (k : Nat) (h : k < str.length) :
    str.take (k + 1) = str.take k ++ [charAt str k] := by
  rw [List.take_succ]
  simp [charAt, List.getD, List.getElem?_eq_getElem h]

theorem take_sublist_take (str : List Char) (j k : Nat) (h : j ≤ k) :
    (str.take j).Sublist (str.take k) := by
  have e : str.take j = (str.take k).take j := by
    rw [List.take_take, Nat.min_eq_left h]
  rw [e]
  exact List.take_sublist _ _

/-- With the base callbacks the body appends nothing or the character at the index. -/
theorem loopBody_base_m_string (sz : Nat) (str : List Char) (len : Nat) (s : LoopState) :
    (loopBody baseCallbacks sz str len s).out.m_string = s.out.m_string ∨
    (loopBody baseCallbacks sz str len s).out.m_string =
      s.out.m_string ++ [charAt str s.i] := by
  simp only [loopBody, matchedProperty]
  split_ifs with h1 h2 h3 <;>
    first
      | (right; rfl)
      | (right; simp only [Output.push, h1, h3]; done)
      | (left; simp [Output.formatChar, baseCallbacks]; done)
      | (left; cases tcschr (List.drop (s.i + 2) str) ')' <;>
          simp [Output.formatKey, baseCallbacks])

/-- With the base callbacks what the loop has produced is a subsequence of the part of
the template it has gone through. -/
theorem buildLoop_base_sublist (sz : Nat) (str : List Char) (len : Nat)
    (hlen : len ≤ str.length) :
    ∀ (fuel : Nat) (s r : LoopState), s.out.m_string.Sublist (str.take s.i) →
      buildLoop baseCallbacks sz str len fuel s = some r →
      r.out.m_string.Sublist str := by
  intro fuel
  induction fuel with
  | zero =>
    intro s r hs h
    by_cases hlt : s.i < len
    · simp [buildLoop, hlt] at h
    · simp only [buildLoop, hlt, if_false, Option.some.injEq] at h
      subst h
      exact hs.trans (List.take_sublist _ _)
  | succ f ih =>
    intro s r hs h
    by_cases hlt : s.i < len
    · simp only [buildLoop, hlt, if_true] at h
      refine ih ⟨(loopBody baseCallbacks sz str len s).i + 1,
        (loopBody baseCallbacks sz str len s).out⟩ r ?_ h
      have hle := loopBody_index_le baseCallbacks sz str len s
      have hstep : (s.out.m_string ++ [charAt str s.i]).Sublist (str.take (s.i + 1)) := by
        rw [take_succ_charAt str s.i (by omega)]
        exact List.Sublist.append hs (List.Sublist.refl _)
      have hmono := take_sublist_take str (s.i + 1)
        ((loopBody baseCallbacks sz str len s).i + 1) (by omega)
      rcases loopBody_base_m_string sz str len s with e | e
      · simp only [e]
        exact (hs.trans (take_sublist_take str s.i (s.i + 1) (by omega))).trans hmono
      · simp only [e]
        exact hstep.trans hmono
    · simp only [buildLoop, hlt, if_false, Option.some.injEq] at h
      subst h
      exact hs.trans (List.take_sublist _ _)

/-- With the base callbacks the result of `Build` is a subsequence of the template. -/
theorem Build_base_sublist (sz : Nat) (str : List Char) (r : Output)
    (h : Build baseCallbacks sz str = some r) : r.m_string.Sublist str := by
  simp only [Build, Option.map_eq_some'] at h
  obtain ⟨s, hs, rfl⟩ := h
  exact buildLoop_base_sublist sz str (tcslen str) (tcslen_le_length str) _ _ _
    (by simp [Output.empty]) hs

/-! ## `$$` in front of a name -/

/-- `$$name)`, `name` not beginning with `(`: the second `$` stands in for the `(` of a
key reference. -/
theorem Build_dollar_dollar_key (cb : Callbacks) (name u : List Char)
    (hopen : name.head? ≠ some '(') (hclose : ')' ∉ name) (hnul : NUL ∉ name) :
    ∃ r, Build cb 1 u = some r ∧
      Build cb 1 ('$' :: '$' :: (name ++ ')' :: u)) =
        some ⟨cb.OnFormatKey name ++ r.m_string, Call.formatKey name :: r.calls⟩ := by
  have hb : loopBody cb 1 (('$' :: '$' :: (name ++ [')'])) ++ u)
      (('$' :: '$' :: (name ++ [')'])).length + tcslen u) ⟨0, Output.empty⟩ =
      ⟨name.length + 2, Output.empty.formatKey cb name⟩ := by
    have e : ('$' :: '$' :: (name ++ [')'])) ++ u = '$' :: '$' :: (name ++ ')' :: u) := by
      simp
    have h3 : ¬ ('$' = '%') := by decide
    have h4 : ¬ (')' = '(') := by decide
    have a1 : ¬ (1 = name.length + 1 + 1 + 1 + tcslen u) := by omega
    have a2 : ¬ (2 = name.length + 1 + 1 + 1 + tcslen u) := by omega
    have hfound := tcschr_append_found name u ')' hclose hnul
    have hcopy := tcsncpy_append name (')' :: u) hnul
    rw [e]
    cases name with
    | nil =>
      simp at hfound hcopy
      have b1 : ¬ (1 = 3 + tcslen u) := by omega
      have b2 : ¬ (2 = 3 + tcslen u) := by omega
      simp [loopBody, matchedProperty, SafeGetNextChar, charAt, h3, h4, hfound, hcopy,
        b1, b2]
    | cons x xs =>
      simp only [List.head?_cons, ne_eq, Option.some.injEq] at hopen
      simp only [List.length_cons] at a1 a2
      simp only [List.cons_append, List.length_cons] at hfound hcopy
      simp [loopBody, matchedProperty, SafeGetNextChar, charAt, h3, hopen, a1, a2,
        hfound, hcopy]
      omega
  have hn : NUL ∉ '$' :: '$' :: (name ++ [')']) := by
    simp only [List.mem_cons, List.mem_append, List.mem_singleton, List.not_mem_nil,
      or_false, not_or]
    exact ⟨by decide, by decide, hnul, by decide⟩
  obtain ⟨r, hr, h⟩ := Build_step cb 1 _ u _ hn (name.length + 2) (by simp) hb
  exact ⟨r, hr, by simpa [Output.append, Output.formatKey, Output.empty] using h⟩

/-! ## A key callback that throws -/

/-- The body with a throwing key callback returns, and returns what the body does with
the exception caught at the callback. -/
theorem loopBodyE_eq {ε : Type} (cb : ThrowingCallbacks ε) (sz : Nat) (str : List Char)
    (len : Nat) (s : LoopState) :
    loopBodyE cb sz str len s = Except.ok (loopBody cb.caught sz str len s) := by
  have hkey : matchedPropertyE cb sz str s = Except.ok (matchedProperty cb.caught sz str s) := by
    simp only [matchedPropertyE, matchedProperty, Output.tryFormatKey, Output.formatKey,
      ThrowingCallbacks.caught]
    cases tcschr (List.drop (s.i + 2) str) ')' with
    | none => rfl
    | some endProp =>
      simp only
      cases cb.OnFormatKey (tcsncpy (List.drop (s.i + 2) str) (endProp / sz)) <;> simp
  simp only [loopBodyE, loopBody, hkey]
  split_ifs <;> rfl

/-- The loop with a throwing key callback never ends in an exception. -/
theorem buildLoopE_eq {ε : Type} (cb : ThrowingCallbacks ε) (sz : Nat) (str : List Char)
    (len : Nat) :
    ∀ (fuel : Nat) (s : LoopState),
      buildLoopE cb sz str len fuel s =
        (buildLoop cb.caught sz str len fuel s).map Except.ok := by
  intro fuel
  induction fuel with
  | zero =>
    intro s
    by_cases h : s.i < len <;> simp [buildLoopE, buildLoop, h]
  | succ f ih =>
    intro s
    by_cases h : s.i < len
    · simp only [buildLoopE, buildLoop, h, if_true, loopBodyE_eq]
      exact ih _
    · simp [buildLoopE, buildLoop, h]

/-- `Build` with a throwing key callback is `Build` with the exception caught at the
callback. -/
theorem BuildE_eq {ε : Type} (cb : ThrowingCallbacks ε) (sz : Nat) (str : List Char) :
    BuildE cb sz str = (Build cb.caught sz str).map Except.ok := by
  simp only [BuildE, Build, buildLoopE_eq, Option.map_map]
  rfl

/-! ## Bounds of the reads -/

theorem charAt_drop (str : List Char) (j k : Nat) :
    charAt (str.drop j) k = charAt str (j + k) := by
  simp [charAt, List.getD, List.getElem?_drop]

theorem charAt_tcslen (str : List Char) : charAt str (tcslen str) = NUL := by
  induction str with
  | nil => simp [charAt, tcslen]
  | cons x xs ih =>
    by_cases hx : x = NUL
    · simp [charAt, tcslen, hx]
    · simpa [charAt, tcslen, hx] using ih

theorem charAt_ne_NUL (str : List Char) :
    ∀ k, k < tcslen str → charAt str k ≠ NUL := by
  induction str with
  | nil => intro k h; simp [tcslen] at h
  | cons x xs ih =>
    intro k h
    by_cases hx : x = NUL
    · simp [tcslen, hx] at h
    · cases k with
      | zero => simpa [charAt] using hx
      | succ k =>
        simp only [tcslen, hx, if_false] at h
        simpa [charAt] using ih k (by omega)

theorem tcslen_drop (str : List Char) :
    ∀ j, j ≤ tcslen str → tcslen (str.drop j) = tcslen str - j := by
  induction str with
  | nil => intro j _; simp [tcslen]
  | cons x xs ih =>
    intro j h
    cases j with
    | zero => simp
    | succ j =>
      by_cases hx : x = NUL
      · simp [tcslen, hx] at h
      · simp only [tcslen, hx, if_false] at h ⊢
        simp only [List.drop_succ_cons]
        rw [ih j (by omega)]
        omega

/-- A character found by `_tcschr` lies before the terminator. -/
theorem tcschr_bound (w : List Char) (c : Char) (hc : c ≠ NUL) :
    ∀ k, tcschr w c = some k → k < tcslen w ∧ charAt w k = c := by
  induction w with
  | nil => intro k h; simp [tcschr, hc] at h
  | cons x xs ih =>
    intro k h
    by_cases hx : x = c
    · simp only [tcschr, hx, if_true, Option.some.injEq] at h
      subst h
      subst hx
      simp [tcslen, hc, charAt]
    · by_cases hx0 : x = NUL
      · subst hx0
        simp [tcschr, hx] at h
      · simp only [tcschr, hx, hx0, if_false, Option.map_eq_some'] at h
        obtain ⟨k1, hk1, rfl⟩ := h
        obtain ⟨h1, h2⟩ := ih k1 hk1
        simp only [tcslen, hx0, if_false]
        exact ⟨by omega, by simpa [charAt] using h2⟩

/-- The characters copied by `_tcsncpy` up to a character found by `_tcschr`. -/
theorem tcsncpy_eq_take (w : List Char) :
    ∀ k, k ≤ tcslen w → tcsncpy w k = w.take k := by
  induction w with
  | nil => intro k _; simp [tcsncpy]
  | cons x xs ih =>
    intro k h
    cases k with
    | zero => simp [tcsncpy]
    | succ k =>
      by_cases hx : x = NUL
      · simp [tcslen, hx] at h
      · simp only [tcslen, hx, if_false] at h
        simp [tcsncpy, hx, ih k (by omega)]

/-- Every read of the body is within the template and its terminator, and both
assertions of `SafeGetNextChar` hold. -/
theorem loopBodyChecked_eq (cb : Callbacks) (sz : Nat) (str : List Char) (s : LoopState)
    (hi : s.i < tcslen str) :
    loopBodyChecked cb sz str (tcslen str) s = some (loopBody cb sz str (tcslen str) s) := by
  have hkey : s.i + 1 ≠ tcslen str →
      matchedPropertyChecked cb sz str (tcslen str) s =
        some (matchedProperty cb sz str s) := by
    intro h1
    have h2 : s.i + 2 ≤ tcslen str := by omega
    simp only [matchedPropertyChecked, matchedProperty, h2, if_true]
    cases hf : tcschr (List.drop (s.i + 2) str) ')' with
    | none => rfl
    | some endProp =>
      obtain ⟨hb, _⟩ := tcschr_bound _ ')' (by decide) endProp hf
      rw [tcslen_drop str _ h2] at hb
      have hd : endProp / sz ≤ endProp := Nat.div_le_self _ _
      have h3 : s.i + 2 + endProp < tcslen str ∧ s.i + 2 + endProp / sz ≤ tcslen str :=
        ⟨by omega, by omega⟩
      simp only [h3, and_self, if_true]
  have r0 : readAt str (tcslen str) s.i = some (charAt str s.i) := by
    simp [readAt, hi]
  simp only [loopBodyChecked, loopBody, r0, Option.some_bind]
  by_cases hp : charAt str s.i = '%'
  · have g1 : SafeGetNextCharChecked str s.i (tcslen str) =
        some (SafeGetNextChar str s.i (tcslen str)) := by
      simp only [SafeGetNextCharChecked, SafeGetNextChar, hi, if_true, readAt]
      split_ifs <;> first | rfl | omega
    simp only [hp, if_true, g1, Option.some_bind]
    split_ifs <;> rfl
  · simp only [hp, if_false]
    by_cases hd : charAt str s.i = '$' ∧ s.i + 1 ≠ tcslen str
    · have h1 : s.i + 1 < tcslen str := by omega
      have r1 : readAt str (tcslen str) (s.i + 1) = some (charAt str (s.i + 1)) := by
        simp [readAt, h1]
      have g2 : SafeGetNextCharChecked str (s.i + 1) (tcslen str) =
          some (SafeGetNextChar str (s.i + 1) (tcslen str)) := by
        simp only [SafeGetNextCharChecked, SafeGetNextChar, h1, if_true, readAt]
        split_ifs <;> first | rfl | omega
      simp only [hd, and_self, if_true, r1, Option.some_bind, hkey hd.2, ne_eq,
        not_false_eq_true]
      by_cases hdd : charAt str (s.i + 1) = '$'
      · by_cases hpar : SafeGetNextChar str (s.i + 1) (tcslen str) = '('
        · simp [hdd, g2, hpar]
        · simp [hdd, g2, hpar]
      · by_cases hpar : charAt str (s.i + 1) = '('
        · simp [hdd, hpar]
        · simp [hdd, hpar]
    · simp only [hd, if_false]

/-- The index the body leaves is still inside the template. -/
theorem loopBody_index_lt (cb : Callbacks) (sz : Nat) (str : List Char) (s : LoopState)
    (hi : s.i < tcslen str) :
    (loopBody cb sz str (tcslen str) s).i < tcslen str := by
  have hkey : s.i + 1 ≠ tcslen str →
      (matchedProperty cb sz str s).i < tcslen str := by
    intro h1
    have h2 : s.i + 2 ≤ tcslen str := by omega
    simp only [matchedProperty]
    cases hf : tcschr (List.drop (s.i + 2) str) ')' with
    | none => exact hi
    | some endProp =>
      obtain ⟨hb, _⟩ := tcschr_bound _ ')' (by decide) endProp hf
      rw [tcslen_drop str _ h2] at hb
      have hd : endProp / sz ≤ endProp := Nat.div_le_self _ _
      simp only
      omega
  simp only [loopBody, SafeGetNextChar]
  split_ifs <;>
    first
      | exact hi
      | exact hkey (by tauto)
      | (simp only; omega)
      | contradiction

/-! ## `StringTokenise` -/

theorem firstIndex_none (q : Char → Bool) (xs : List Char)
    (h : ∀ x ∈ xs, q x = false) : firstIndex q xs = none := by
  induction xs with
  | nil => rfl
  | cons x xs ih =>
    have hx : q x = false := h x (by simp)
    have hxs : ∀ y ∈ xs, q y = false := fun y hy => h y (by simp [hy])
    simp [firstIndex, hx, ih hxs]

theorem firstIndex_append (q : Char → Bool) (xs : List Char) (c : Char) (r : List Char)
    (h : ∀ x ∈ xs, q x = false) (hc : q c = true) :
    firstIndex q (xs ++ c :: r) = some xs.length := by
  induction xs with
  | nil => simp [firstIndex, hc]
  | cons x xs ih =>
    have hx : q x = false := h x (by simp)
    have hxs : ∀ y ∈ xs, q y = false := fun y hy => h y (by simp [hy])
    simp [firstIndex, hx, ih hxs]

/-- A list is a run of characters that satisfy `p` followed by nothing or by a
character that does not. -/
theorem exists_run (p : Char → Bool) (w : List Char) :
    ∃ ds w1, w = ds ++ w1 ∧ (∀ x ∈ ds, p x = true) ∧
      (w1 = [] ∨ ∃ c w2, w1 = c :: w2 ∧ p c = false) := by
  induction w with
  | nil => exact ⟨[], [], rfl, by simp, Or.inl rfl⟩
  | cons x xs ih =>
    by_cases hx : p x = true
    · obtain ⟨ds, w1, e, h1, h2⟩ := ih
      refine ⟨x :: ds, w1, by simp [e], ?_, h2⟩
      intro y hy
      rcases List.mem_cons.1 hy with rfl | hy
      · exact hx
      · exact h1 y hy
    · exact ⟨[], x :: xs, rfl, by simp, Or.inr ⟨x, xs, rfl, by simpa using hx⟩⟩

theorem splitDiscardEmpty_nil (d : List Char) : splitDiscardEmpty [] d = [] := by
  simp [splitDiscardEmpty, List.splitOnP_nil]

theorem splitDiscardEmpty_delims (d ds w : List Char)
    (h : ∀ x ∈ ds, d.contains x = true) :
    splitDiscardEmpty (ds ++ w) d = splitDiscardEmpty w d := by
  induction ds with
  | nil => rfl
  | cons x xs ih =>
    have hx : d.contains x = true := h x (by simp)
    have hxs : ∀ y ∈ xs, d.contains y = true := fun y hy => h y (by simp [hy])
    have := ih hxs
    simp only [splitDiscardEmpty] at this ⊢
    simp only [List.cons_append, List.splitOnP_cons, hx, if_true]
    simpa using this

theorem splitDiscardEmpty_single (d tk : List Char) (hne : tk ≠ [])
    (h : ∀ x ∈ tk, d.contains x = false) :
    splitDiscardEmpty tk d = [tk] := by
  have hs : tk.splitOnP (fun c => d.contains c) = [tk] :=
    List.splitOnP_eq_single _ tk (fun x hx => by simpa using h x hx)
  cases tk with
  | nil => exact absurd rfl hne
  | cons x xs =>
    rw [splitDiscardEmpty, hs]
    simp [splitDiscardEmpty]

theorem splitDiscardEmpty_token (d tk : List Char) (c : Char) (r : List Char)
    (hne : tk ≠ []) (h : ∀ x ∈ tk, d.contains x = false) (hc : d.contains c = true) :
    splitDiscardEmpty (tk ++ c :: r) d = tk :: splitDiscardEmpty (c :: r) d := by
  have hs : (tk ++ c :: r).splitOnP (fun c => d.contains c) =
      tk :: r.splitOnP (fun c => d.contains c) :=
    List.splitOnP_first _ tk (fun x hx => by simpa using h x hx) c hc r
  have h2 := splitDiscardEmpty_delims d [c] r (by simpa using hc)
  simp only [List.singleton_append] at h2
  rw [h2]
  cases tk with
  | nil => exact absurd rfl hne
  | cons x xs =>
    rw [splitDiscardEmpty, hs]
    simp [splitDiscardEmpty]

theorem sizeSub_npos (npos l : Nat) (h : l ≤ npos) : sizeSub npos npos l = npos - l := by
  have e : npos + (npos + 1) - l = (npos - l) + (npos + 1) := by omega
  rw [sizeSub, e, Nat.add_mod_right, Nat.mod_eq_of_lt (by omega)]

theorem sizeSub_add (npos l k : Nat) (h : l + k ≤ npos) : sizeSub npos (l + k) l = k := by
  have e : l + k + (npos + 1) - l = k + (npos + 1) := by omega
  rw [sizeSub, e, Nat.add_mod_right, Nat.mod_eq_of_lt (by omega)]

/-- Once both positions are `npos` the loop is over. -/
theorem tokeniseLoop_npos (npos : Nat) (str d : List Char) (fuel : Nat)
    (tokens : List (List Char)) :
    tokeniseLoop npos str d fuel npos npos tokens = Except.ok tokens := by
  cases fuel <;> simp [tokeniseLoop]

theorem find_first_of_ge (npos : Nat) (str d : List Char) (pos : Nat)
    (h : str.length ≤ pos) : find_first_of npos str d pos = npos := by
  simp [find_first_of, List.drop_eq_nil_of_le h, firstIndex]

theorem find_first_not_of_ge (npos : Nat) (str d : List Char) (pos : Nat)
    (h : str.length ≤ pos) : find_first_not_of npos str d pos = npos := by
  simp [find_first_not_of, List.drop_eq_nil_of_le h, firstIndex]

/-- Behind the prefix `pre` only delimiters are left: the loop is over. -/
theorem tokeniseLoop_delims (npos : Nat) (d pre w : List Char)
    (tokens : List (List Char)) (fuel : Nat)
    (hw : ∀ x ∈ w, d.contains x = true) (hlen : (pre ++ w).length < npos) :
    tokeniseLoop npos (pre ++ w) d fuel
        (find_first_not_of npos (pre ++ w) d pre.length)
        (find_first_of npos (pre ++ w) d (find_first_not_of npos (pre ++ w) d pre.length))
        tokens =
      Except.ok (tokens ++ splitDiscardEmpty w d) := by
  have h0 : find_first_not_of npos (pre ++ w) d pre.length = npos := by
    have hd := drop_append_right pre w 0
    simp only [Nat.add_zero, List.drop_zero] at hd
    simp only [find_first_not_of, hd]
    rw [firstIndex_none _ w (fun x hx => by simpa using hw x hx)]
  have h1 : find_first_of npos (pre ++ w) d npos = npos :=
    find_first_of_ge npos _ d npos (by omega)
  have h2 : splitDiscardEmpty w d = [] := by
    have := splitDiscardEmpty_delims d w [] hw
    simpa [splitDiscardEmpty_nil] using this
  rw [h0, h1, tokeniseLoop_npos, h2, List.append_nil]

/-- The loop entered behind the prefix `pre` of `str = pre ++ w` appends the non-empty
pieces of `w`. -/
theorem tokeniseLoop_eq (npos : Nat) (d : List Char) :
    ∀ (n : Nat) (pre w : List Char) (tokens : List (List Char)) (fuel : Nat),
      w.length ≤ n → w.length ≤ fuel → (pre ++ w).length < npos →
      tokeniseLoop npos (pre ++ w) d fuel
          (find_first_not_of npos (pre ++ w) d pre.length)
          (find_first_of npos (pre ++ w) d (find_first_not_of npos (pre ++ w) d pre.length))
          tokens =
        Except.ok (tokens ++ splitDiscardEmpty w d) := by
  intro n
  induction n with
  | zero =>
    intro pre w tokens fuel hn _ hlen
    have hw : w = [] := List.length_eq_zero.1 (by omega)
    subst hw
    exact tokeniseLoop_delims npos d pre [] tokens fuel (by simp) hlen
  | succ n ih =>
    intro pre w tokens fuel hn hfuel hlen
    obtain ⟨ds, w1, ew, hds, hw1⟩ := exists_run (fun c => d.contains c) w
    rcases hw1 with rfl | ⟨c, w2, rfl, hc⟩
    · rw [List.append_nil] at ew
      subst ew
      exact tokeniseLoop_delims npos d pre _ tokens fuel hds hlen
    · obtain ⟨tk0, rest, etk, htk0, hrest⟩ := exists_run (fun c => !d.contains c) w2
      -- the token is `c :: tk0`
      have htk : ∀ x ∈ c :: tk0, d.contains x = false := by
        intro x hx
        rcases List.mem_cons.1 hx with rfl | hx
        · simpa using hc
        · simpa using htk0 x hx
      have hc2 : d.contains c = false := by simpa using hc
      subst ew
      subst etk
      have hd0 := drop_append_right pre (ds ++ c :: (tk0 ++ rest)) 0
      simp only [Nat.add_zero, List.drop_zero] at hd0
      have hlast : find_first_not_of npos (pre ++ (ds ++ c :: (tk0 ++ rest))) d pre.length =
          pre.length + ds.length := by
        simp only [find_first_not_of, hd0]
        rw [firstIndex_append _ ds c (tk0 ++ rest) (fun x hx => by simpa using hds x hx)
          (by simpa using hc2)]
      have hd1 : (pre ++ (ds ++ c :: (tk0 ++ rest))).drop (pre.length + ds.length) =
          c :: (tk0 ++ rest) := by
        have := drop_append_right (pre ++ ds) (c :: (tk0 ++ rest)) 0
        simp only [Nat.add_zero, List.drop_zero, List.length_append, List.append_assoc] at this
        exact this
      have hsde : splitDiscardEmpty (ds ++ c :: (tk0 ++ rest)) d =
          splitDiscardEmpty ((c :: tk0) ++ rest) d := by
        simpa using splitDiscardEmpty_delims d ds (c :: (tk0 ++ rest)) hds
      have hlen2 : pre.length + ds.length + (tk0.length + 1) + rest.length < npos := by
        simp only [List.length_append, List.length_cons] at hlen
        omega
      have hin : ¬ (pre.length + ds.length > (pre ++ (ds ++ c :: (tk0 ++ rest))).length) := by
        simp only [List.length_append, List.length_cons]
        omega
      obtain ⟨f, rfl⟩ : ∃ f, fuel = f + 1 := by
        simp only [List.length_append, List.length_cons] at hfuel
        exact ⟨fuel - 1, by omega⟩
      rw [hlast, hsde]
      rcases hrest with rfl | ⟨c1, w3, rfl, hc1⟩
      · -- the token runs to the end of the string
        have hpos : find_first_of npos (pre ++ (ds ++ c :: (tk0 ++ []))) d
            (pre.length + ds.length) = npos := by
          simp only [find_first_of, hd1]
          rw [firstIndex_none _ (c :: (tk0 ++ [])) (fun x hx => by
            simp only [List.append_nil] at hx
            simpa using htk x hx)]
        have hcond : npos ≠ npos ∨ npos ≠ pre.length + ds.length := Or.inr (by omega)
        have htake : (c :: (tk0 ++ [])).take (npos - (pre.length + ds.length)) =
            c :: tk0 := by
          rw [List.append_nil]
          apply List.take_of_length_le
          simp only [List.length_cons]
          omega
        rw [hpos]
        simp only [tokeniseLoop, hcond, if_true, substr, hin, if_false, hd1,
          sizeSub_npos npos _ (by omega : pre.length + ds.length ≤ npos), htake]
        rw [find_first_not_of_ge npos _ d npos (by omega),
          find_first_of_ge npos _ d npos (by omega), tokeniseLoop_npos]
        rw [List.append_nil, splitDiscardEmpty_single d (c :: tk0) (by simp) htk]
      · -- the token ends at a delimiter
        have hc1d : d.contains c1 = true := by simpa using hc1
        have hpos : find_first_of npos (pre ++ (ds ++ c :: (tk0 ++ c1 :: w3))) d
            (pre.length + ds.length) = pre.length + ds.length + (tk0.length + 1) := by
          simp only [find_first_of, hd1]
          have := firstIndex_append (fun c => d.contains c) (c :: tk0) c1 w3
            (fun x hx => by simpa using htk x hx) hc1d
          simp only [List.cons_append, List.length_cons] at this
          rw [this]
        have hcond : npos ≠ pre.length + ds.length + (tk0.length + 1) ∨
            npos ≠ pre.length + ds.length := Or.inr (by omega)
        have htake : (c :: (tk0 ++ c1 :: w3)).take (tk0.length + 1) = c :: tk0 := by
          simp
        rw [hpos]
        simp only [tokeniseLoop, hcond, if_true, substr, hin, if_false, hd1,
          sizeSub_add npos _ _ (by omega :
            pre.length + ds.length + (tk0.length + 1) ≤ npos), htake]
        have e1 : pre ++ (ds ++ c :: (tk0 ++ c1 :: w3)) =
            (pre ++ ds ++ c :: tk0) ++ c1 :: w3 := by simp
        have e2 : pre.length + ds.length + (tk0.length + 1) =
            (pre ++ ds ++ c :: tk0).length := by
          simp only [List.length_append, List.length_cons]
        rw [e1, e2]
        rw [ih (pre ++ ds ++ c :: tk0) (c1 :: w3) (tokens ++ [c :: tk0]) f
          (by
            simp only [List.length_append, List.length_cons] at hn ⊢
            omega)
          (by
            simp only [List.length_append, List.length_cons] at hfuel ⊢
            omega)
          (by
            rw [← e1]
            exact hlen)]
        rw [splitDiscardEmpty_token d (c :: tk0) c1 w3 (by simp) htk hc1d]
        simp

/-- What `StringTokenise` leaves in `tokens`: the former content followed by the non-empty
pieces of `str` split at its delimiter characters. -/
theorem StringTokenise_eq (npos : Nat) (str : List Char) (tokens : List (List Char))
    (d : List Char) (hlen : str.length < npos) :
    StringTokenise npos str tokens d = Except.ok (tokens ++ splitDiscardEmpty str d) := by
  have := tokeniseLoop_eq npos d str.length [] str tokens str.length (Nat.le_refl _)
    (Nat.le_refl _) (by simpa using hlen)
  simpa [StringTokenise] using this

/-- No piece of a split holds a character the split is made at. -/
theorem splitOnP_pieces (p : Char → Bool) (xs : List Char) :
    ∀ piece ∈ xs.splitOnP p, ∀ x ∈ piece, p x = false := by
  induction xs with
  | nil => simp [List.splitOnP_nil]
  | cons a as ih =>
    rw [List.splitOnP_cons]
    by_cases ha : p a = true
    · simp only [ha, if_true, List.mem_cons]
      rintro piece (rfl | h) x hx
      · simp at hx
      · exact ih piece h x hx
    · simp only [ha, if_false]
      cases hs : as.splitOnP p with
      | nil => simp [List.modifyHead]
      | cons hd tl =>
        rw [hs] at ih
        simp only [List.modifyHead]
        intro piece hp x hx
        rcases List.mem_cons.1 hp with e | h
        · rw [e] at hx
          rcases List.mem_cons.1 hx with e2 | hx
          · rw [e2]
            simpa using ha
          · exact ih hd (by simp) x hx
        · exact ih piece (by simp [h]) x hx

/-- The pieces of a split, put together, are the characters the split is not made at. -/
theorem splitOnP_flatten (p : Char → Bool) (xs : List Char) :
    (xs.splitOnP p).flatten = xs.filter (fun c => !p c) := by
  induction xs with
  | nil => simp [List.splitOnP_nil]
  | cons a as ih =>
    rw [List.splitOnP_cons]
    by_cases ha : p a = true
    · simp [ha, ih]
    · simp only [ha, if_false]
      cases hs : as.splitOnP p with
      | nil => exact absurd hs (List.splitOnP_ne_nil p as)
      | cons hd tl =>
        rw [hs] at ih
        simp only [List.modifyHead, List.flatten_cons, List.cons_append] at ih ⊢
        simp [ha, ih]

theorem flatten_filter_nonempty (L : List (List Char)) :
    (L.filter (fun piece => !piece.isEmpty)).flatten = L.flatten := by
  induction L with
  | nil => rfl
  | cons a as ih =>
    cases a with
    | nil => simpa using ih
    | cons x xs => simp [List.filter, ih]

/-! ## `strFirstNonWS` and `strLastNonWSChar` -/

theorem isWS_NUL : isWS NUL = false := by decide

theorem strFirstNonWS_loop_add (w : List Char) :
    ∀ i, strFirstNonWS_loop w i = i + strFirstNonWS_loop w 0 := by
  induction w with
  | nil => intro i; simp [strFirstNonWS_loop]
  | cons c cs ih =>
    intro i
    by_cases h : c ≠ NUL ∧ isWS c = true
    · simp only [strFirstNonWS_loop, h, and_self, if_true, ne_eq, not_false_eq_true]
      rw [ih (i + 1), ih (0 + 1)]
      omega
    · simp [strFirstNonWS_loop, h]

theorem strFirstNonWS_cons (c : Char) (cs : List Char) :
    strFirstNonWS (c :: cs) =
      if c ≠ NUL ∧ isWS c = true then strFirstNonWS cs + 1 else 0 := by
  by_cases h : c ≠ NUL ∧ isWS c = true
  · simp only [strFirstNonWS, strFirstNonWS_loop, h, and_self, if_true, ne_eq,
      not_false_eq_true]
    rw [strFirstNonWS_loop_add cs (0 + 1)]
    omega
  · simp [strFirstNonWS, strFirstNonWS_loop, h]

/-- What `strFirstNonWS` returns: within the string, behind whitespace only, and at a
character that is no whitespace. -/
theorem strFirstNonWS_spec (w : List Char) :
    strFirstNonWS w ≤ tcslen w ∧
    (∀ k, k < strFirstNonWS w → isWS (charAt w k) = true) ∧
    isWS (charAt w (strFirstNonWS w)) = false := by
  induction w with
  | nil => exact ⟨by simp [strFirstNonWS, strFirstNonWS_loop, tcslen], by
      simp [strFirstNonWS, strFirstNonWS_loop], by
      simpa [strFirstNonWS, strFirstNonWS_loop, charAt] using isWS_NUL⟩
  | cons c cs ih =>
    obtain ⟨h1, h2, h3⟩ := ih
    rw [strFirstNonWS_cons]
    by_cases h : c ≠ NUL ∧ isWS c = true
    · simp only [h, and_self, if_true, ne_eq, not_false_eq_true]
      refine ⟨by simp [tcslen, h.1]; exact h1, ?_, by simpa [charAt] using h3⟩
      intro k hk
      cases k with
      | zero => simpa [charAt] using h.2
      | succ k => simpa [charAt] using h2 k (by omega)
    · simp only [h, if_false]
      refine ⟨Nat.zero_le _, by simp, ?_⟩
      by_cases hc : c = NUL
      · simpa [charAt, hc] using isWS_NUL
      · simpa [charAt, hc] using h

/-- On whitespace only, `strFirstNonWS` returns the length. -/
theorem strFirstNonWS_all (w : List Char) (h : ∀ c ∈ w, isWS c = true) :
    strFirstNonWS w = w.length := by
  induction w with
  | nil => rfl
  | cons c cs ih =>
    have hc : isWS c = true := h c (by simp)
    have hn : c ≠ NUL := by
      intro e
      rw [e, isWS_NUL] at hc
      exact absurd hc (by decide)
    rw [strFirstNonWS_cons]
    simp [hc, hn, ih (fun x hx => h x (by simp [hx]))]

/-- What the loop of `strLastNonWSChar` returns when entered at index `k`. -/
theorem strLastNonWSChar_loop_spec (line : List Char) (k : Nat) :
    ∃ m : Nat, strLastNonWSChar_loop line k = (m : Int) ∧ m ≤ k ∧
      (∀ j, m < j → j ≤ k → isWS (charAt line j) = true) ∧
      (m = 0 ∨ isWS (charAt line m) = false) := by
  induction k with
  | zero => exact ⟨0, rfl, Nat.le_refl _, by intro j h1 h2; omega, Or.inl rfl⟩
  | succ k ih =>
    by_cases h : isWS (charAt line (k + 1)) = true
    · obtain ⟨m, e, hm, hws, hend⟩ := ih
      refine ⟨m, by simp [strLastNonWSChar_loop, h, e], by omega, ?_, hend⟩
      intro j h1 h2
      by_cases hj : j = k + 1
      · rw [hj]; exact h
      · exact hws j h1 (by omega)
    · refine ⟨k + 1, by simp [strLastNonWSChar_loop, h], Nat.le_refl _, ?_,
        Or.inr (by simpa using h)⟩
      intro j h1 h2
      omega

/-- What `strLastNonWSChar(line, n)` returns for `n ≥ 1`. -/
theorem strLastNonWSChar_spec (line : List Char) (n : Nat) (hn : 1 ≤ n) :
    ∃ m : Nat, strLastNonWSChar line (n : Int) = (m : Int) ∧ m ≤ n - 1 ∧
      (∀ j, m < j → j ≤ n - 1 → isWS (charAt line j) = true) ∧
      (m = 0 ∨ isWS (charAt line m) = false) := by
  obtain ⟨m, e, h⟩ := strLastNonWSChar_loop_spec line (n - 1)
  refine ⟨m, ?_, h⟩
  have e1 : (n : Int) - 1 = Int.ofNat (n - 1) := by
    simp only [Int.ofNat_eq_coe]
    omega
  simp only [strLastNonWSChar, e1]
  exact e

theorem isWS_iff (c : Char) : isWS c = true ↔ (c = ' ' ∨ c = TAB) := by
  simp [isWS]

theorem isWS_false_iff (c : Char) : isWS c = false ↔ (c ≠ ' ' ∧ c ≠ TAB) := by
  simp [isWS]

/-- Trailing delimiters give no token. -/
theorem splitDiscardEmpty_trailing (d ds : List Char) (hds : ∀ x ∈ ds, d.contains x = true) :
    ∀ (n : Nat) (w : List Char), w.length ≤ n →
      splitDiscardEmpty (w ++ ds) d = splitDiscardEmpty w d := by
  have hall : splitDiscardEmpty ds d = [] := by
    have := splitDiscardEmpty_delims d ds [] hds
    simpa [splitDiscardEmpty_nil] using this
  intro n
  induction n with
  | zero =>
    intro w hn
    have hw : w = [] := List.length_eq_zero.1 (by omega)
    subst hw
    simpa [splitDiscardEmpty_nil] using hall
  | succ n ih =>
    intro w hn
    obtain ⟨ds0, w1, ew, hds0, hw1⟩ := exists_run (fun c => d.contains c) w
    subst ew
    rw [List.append_assoc, splitDiscardEmpty_delims d ds0 _ hds0,
      splitDiscardEmpty_delims d ds0 _ hds0]
    rcases hw1 with rfl | ⟨c, w2, rfl, hc⟩
    · simpa [splitDiscardEmpty_nil] using hall
    · obtain ⟨tk0, rest, etk, htk0, hrest⟩ := exists_run (fun c => !d.contains c) w2
      subst etk
      have htk : ∀ x ∈ c :: tk0, d.contains x = false := by
        intro x hx
        rcases List.mem_cons.1 hx with rfl | hx
        · simpa using hc
        · simpa using htk0 x hx
      rcases hrest with rfl | ⟨c1, w3, rfl, hc1⟩
      · rw [List.append_nil]
        cases ds with
        | nil => simp
        | cons x xs =>
          have hx : d.contains x = true := hds x (by simp)
          have := splitDiscardEmpty_token d (c :: tk0) x xs (by simp) htk hx
          rw [List.cons_append] at this
          rw [List.cons_append, this, hall,
            splitDiscardEmpty_single d (c :: tk0) (by simp) htk]
      · have hc1d : d.contains c1 = true := by simpa using hc1
        have e1 : c :: (tk0 ++ c1 :: w3) ++ ds = (c :: tk0) ++ c1 :: (w3 ++ ds) := by simp
        have e2 : c :: (tk0 ++ c1 :: w3) = (c :: tk0) ++ c1 :: w3 := by simp
        have hA := splitDiscardEmpty_delims d [c1] (w3 ++ ds) (by simpa using hc1d)
        have hB := splitDiscardEmpty_delims d [c1] w3 (by simpa using hc1d)
        simp only [List.singleton_append] at hA hB
        rw [e1, e2, splitDiscardEmpty_token d (c :: tk0) c1 _ (by simp) htk hc1d,
          splitDiscardEmpty_token d (c :: tk0) c1 _ (by simp) htk hc1d, hA, hB,
          ih w3 (by
            simp only [List.length_append, List.length_cons] at hn
            omega)]

/-! ## The key reference the body has consumed -/

/-- The character `_tcschr` finds is the first of its kind. -/
theorem tcschr_first (w : List Char) (c : Char) :
    ∀ k, tcschr w c = some k → c ∉ w.take k := by
  induction w with
  | nil => intro k _; simp
  | cons x xs ih =>
    intro k h
    by_cases hx : x = c
    · simp only [tcschr, hx, if_true, Option.some.injEq] at h
      subst h
      simp
    · by_cases hx0 : x = NUL
      · subst hx0
        by_cases hc : c = NUL
        · exact absurd hc.symm hx
        · simp [tcschr, hx] at h
      · simp only [tcschr, hx, hx0, if_false, Option.map_eq_some'] at h
        obtain ⟨k1, hk1, rfl⟩ := h
        simp only [List.take_succ_cons, List.mem_cons, not_or]
        exact ⟨fun e => hx e.symm, ih k1 hk1⟩

/-- When the key branch invokes `OnFormatKey(key)`, the index it leaves is that of the
first `)` behind `str[i+2]`, inside the template, and `key` is the text in between. -/
theorem matchedProperty_key (cb : Callbacks) (str : List Char) (s : LoopState)
    (key : List Char) (h2 : s.i + 2 ≤ tcslen str)
    (h : (matchedProperty cb 1 str s).out.calls = s.out.calls ++ [Call.formatKey key]) :
    s.i + 2 ≤ (matchedProperty cb 1 str s).i ∧
    (matchedProperty cb 1 str s).i < tcslen str ∧
    charAt str (matchedProperty cb 1 str s).i = ')' ∧
    key = (str.drop (s.i + 2)).take ((matchedProperty cb 1 str s).i - (s.i + 2)) ∧
    ')' ∉ key := by
  simp only [matchedProperty] at h ⊢
  cases hf : tcschr (List.drop (s.i + 2) str) ')' with
  | none => simp [hf] at h
  | some e =>
    obtain ⟨hb, hc⟩ := tcschr_bound _ ')' (by decide) e hf
    have hfirst := tcschr_first _ ')' e hf
    have hcopy := tcsncpy_eq_take (List.drop (s.i + 2) str) e (Nat.le_of_lt hb)
    rw [tcslen_drop str _ h2] at hb
    rw [charAt_drop] at hc
    simp only [hf, Nat.div_one, Output.formatKey, List.append_cancel_left_eq,
      List.cons.injEq, Call.formatKey.injEq, and_true] at h
    have e3 : s.i + (2 + e) - (s.i + 2) = e := by omega
    have e4 : s.i + (2 + e) = s.i + 2 + e := by omega
    simp only [Nat.div_one, e3]
    rw [← h, hcopy]
    exact ⟨by omega, by omega, by rw [e4]; exact hc, rfl, hfirst⟩

/-- When the body invokes `OnFormatKey(key)`, the index it leaves is that of the first
`)` behind `str[i+2]`, inside the template, and `key` is the text in between. -/
theorem loopBody_key (cb : Callbacks) (str : List Char) (s : LoopState)
    (key : List Char) (hi : s.i < tcslen str)
    (h : (loopBody cb 1 str (tcslen str) s).out.calls =
      s.out.calls ++ [Call.formatKey key]) :
    s.i + 2 ≤ (loopBody cb 1 str (tcslen str) s).i ∧
    (loopBody cb 1 str (tcslen str) s).i < tcslen str ∧
    charAt str (loopBody cb 1 str (tcslen str) s).i = ')' ∧
    key = (str.drop (s.i + 2)).take ((loopBody cb 1 str (tcslen str) s).i - (s.i + 2)) ∧
    ')' ∉ key := by
  simp only [loopBody] at h ⊢
  split_ifs at h ⊢
  all_goals first
    | exact matchedProperty_key cb str s key (by omega) h
    | simp [Output.push, Output.formatChar] at h

/-- The loop with every read and assertion checked. -/
theorem buildLoopChecked_eq (cb : Callbacks) (sz : Nat) (str : List Char) :
    ∀ (fuel : Nat) (s : LoopState),
      buildLoopChecked cb sz str (tcslen str) fuel s =
        buildLoop cb sz str (tcslen str) fuel s := by
  intro fuel
  induction fuel with
  | zero => intro s; rfl
  | succ f ih =>
    intro s
    by_cases h : s.i < tcslen str
    · simp only [buildLoopChecked, buildLoop, h, if_true, loopBodyChecked_eq cb sz str s h,
        Option.some_bind]
      exact ih _
    · simp [buildLoopChecked, buildLoop, h]

/-! ## The claims on the callbacks, the unterminated reference and `$$` -/

/-- C11. With the base (no-op) callbacks, for every template `s`, `Build(s)` is a
subsequence of `s`, so no longer than `s`; a `%c` with `c` neither `%` nor the
terminator, and a terminated `$(name)` (one-byte `TCHAR`), add nothing to the result
of the rest `u`; and `Build("a%bc$(k)d")` is `acd`, both callbacks having been
invoked. -/
theorem Build_base_callbacks (sz : Nat) (s : List Char) (c : Char) (name u : List Char)
    (hc : c ≠ '%') (hc0 : c ≠ NUL) (hclose : ')' ∉ name) (hnul : NUL ∉ name) :
    (∃ r, Build baseCallbacks sz s = some r ∧ r.m_string.Sublist s ∧
      r.m_string.length ≤ s.length) ∧
    (∃ r, Build baseCallbacks sz u = some r ∧
      (Build baseCallbacks sz ('%' :: c :: u)).map Output.m_string = some r.m_string) ∧
    (∃ r, Build baseCallbacks 1 u = some r ∧
      (Build baseCallbacks 1 ("$(".toList ++ name ++ ")".toList ++ u)).map Output.m_string =
        some r.m_string) ∧
    Build baseCallbacks 1 "a%bc$(k)d".toList =
      some ⟨"acd".toList, [Call.formatChar 'b', Call.formatKey "k".toList]⟩ := by
  refine ⟨?_, ?_, ?_, by decide⟩
  · obtain ⟨r, hr⟩ := Build_total baseCallbacks sz s
    have hsub := Build_base_sublist sz s r hr
    exact ⟨r, hr, hsub, hsub.length_le⟩
  · obtain ⟨r, hr, h⟩ := Build_percent_char baseCallbacks sz c u hc hc0
    exact ⟨r, hr, by rw [h]; rfl⟩
  · obtain ⟨r, hr, h⟩ := Build_key baseCallbacks name u hclose hnul
    refine ⟨r, hr, ?_⟩
    have e : "$(".toList ++ name ++ ")".toList ++ u = '$' :: '(' :: (name ++ ')' :: u) := by
      show ['$', '('] ++ name ++ [')'] ++ u = _
      simp
    rw [e, h]
    rfl

/-- C11 at `s = "a%bc$(k)d"`, `c = 'b'`, `name = "k"`, `u = "d"`. -/
theorem Build_base_callbacks_witness :
    ('b' ≠ '%' ∧ 'b' ≠ NUL ∧ ')' ∉ "k".toList ∧ NUL ∉ "k".toList) ∧
    ((∃ r, Build baseCallbacks 1 "a%bc$(k)d".toList = some r ∧
        r.m_string.Sublist "a%bc$(k)d".toList ∧
        r.m_string.length ≤ "a%bc$(k)d".toList.length) ∧
      (∃ r, Build baseCallbacks 1 "d".toList = some r ∧
        (Build baseCallbacks 1 ('%' :: 'b' :: "d".toList)).map Output.m_string =
          some r.m_string) ∧
      (∃ r, Build baseCallbacks 1 "d".toList = some r ∧
        (Build baseCallbacks 1 ("$(".toList ++ "k".toList ++ ")".toList ++ "d".toList)).map
            Output.m_string = some r.m_string) ∧
      Build baseCallbacks 1 "a%bc$(k)d".toList =
        some ⟨"acd".toList, [Call.formatChar 'b', Call.formatKey "k".toList]⟩) :=
  ⟨⟨by decide, by decide, by decide, by decide⟩,
    Build_base_callbacks 1 "a%bc$(k)d".toList 'b' "k".toList "d".toList (by decide)
      (by decide) (by decide) (by decide)⟩

/-- C12. A key callback that throws does not end `Build` (one-byte `TCHAR`): on `t`,
`$(name)` and `u`, with `t` ordinary text and `name` without `)`, `Build` returns a
value, never the exception; when `OnFormatKey(name)` throws, the result is `t` followed
by the expansion of `u`, and when it returns `text`, the result is `t`, `text` and the
same expansion of `u`; in both cases the callback log records the invocation. -/
theorem BuildE_key_failure {ε : Type} (cb : ThrowingCallbacks ε) (t name u : List Char)
    (h0 : NUL ∉ t) (h1 : '%' ∉ t) (h2 : '$' ∉ t) (hclose : ')' ∉ name)
    (hnul : NUL ∉ name) :
    ∃ r, BuildE cb 1 u = some (Except.ok r) ∧
      (∀ e, cb.OnFormatKey name = Except.error e →
        BuildE cb 1 (t ++ "$(".toList ++ name ++ ")".toList ++ u) =
          some (Except.ok ⟨t ++ r.m_string, Call.formatKey name :: r.calls⟩)) ∧
      (∀ text, cb.OnFormatKey name = Except.ok text →
        BuildE cb 1 (t ++ "$(".toList ++ name ++ ")".toList ++ u) =
          some (Except.ok ⟨t ++ text ++ r.m_string, Call.formatKey name :: r.calls⟩)) := by
  obtain ⟨r, hr, h⟩ := Build_key cb.caught name u hclose hnul
  have hall := Build_plain_append cb.caught 1 t _ _ h0 h1 h2 h
  have e : t ++ "$(".toList ++ name ++ ")".toList ++ u =
      t ++ '$' :: '(' :: (name ++ ')' :: u) := by
    show t ++ ['$', '('] ++ name ++ [')'] ++ u = _
    simp
  refine ⟨r, by simp [BuildE_eq, hr], ?_, ?_⟩
  · intro err herr
    rw [e, BuildE_eq, hall]
    simp [ThrowingCallbacks.caught, herr]
  · intro text htext
    rw [e, BuildE_eq, hall]
    simp [ThrowingCallbacks.caught, htext]

/-- C12 at `t = "ab"`, `name = "bad"`, `u = "cd"` with a key callback that throws on
every key but `good`. -/
theorem BuildE_key_failure_witness :
    (NUL ∉ "ab".toList ∧ '%' ∉ "ab".toList ∧ '$' ∉ "ab".toList ∧ ')' ∉ "bad".toList ∧
      NUL ∉ "bad".toList) ∧
    ∃ r, BuildE (⟨fun _ => [], fun key =>
          if key = "good".toList then Except.ok key else Except.error 1⟩ :
          ThrowingCallbacks Nat) 1 "cd".toList = some (Except.ok r) ∧
      (∀ e, (⟨fun _ => [], fun key =>
            if key = "good".toList then Except.ok key else Except.error 1⟩ :
            ThrowingCallbacks Nat).OnFormatKey "bad".toList = Except.error e →
        BuildE (⟨fun _ => [], fun key =>
            if key = "good".toList then Except.ok key else Except.error 1⟩ :
            ThrowingCallbacks Nat) 1
            ("ab".toList ++ "$(".toList ++ "bad".toList ++ ")".toList ++ "cd".toList) =
          some (Except.ok ⟨"ab".toList ++ r.m_string,
            Call.formatKey "bad".toList :: r.calls⟩)) ∧
      (∀ text, (⟨fun _ => [], fun key =>
            if key = "good".toList then Except.ok key else Except.error 1⟩ :
            ThrowingCallbacks Nat).OnFormatKey "bad".toList = Except.ok text →
        BuildE (⟨fun _ => [], fun key =>
            if key = "good".toList then Except.ok key else Except.error 1⟩ :
            ThrowingCallbacks Nat) 1
            ("ab".toList ++ "$(".toList ++ "bad".toList ++ ")".toList ++ "cd".toList) =
          some (Except.ok ⟨"ab".toList ++ text ++ r.m_string,
            Call.formatKey "bad".toList :: r.calls⟩)) :=
  ⟨⟨by decide, by decide, by decide, by decide, by decide⟩,
    BuildE_key_failure _ "ab".toList "bad".toList "cd".toList (by decide) (by decide)
      (by decide) (by decide) (by decide)⟩

/-- C16. What `Build` emits for an unterminated reference: for `r` without `)`,
`Build` on `$(` and `r` is `(` followed by the expansion of `r` as an ordinary
template; only the `$` is consumed, the callbacks invoked are those of the expansion of
`r`, and `OnFormatKey` is not among them.  With the base callbacks
`Build("abc$(oops")` is `abc(oops`; with a callback that doubles the format
character `Build("$(a%b")` is `(abb`. -/
theorem Build_unterminated_emits (cb : Callbacks) (sz : Nat) (r : List Char)
    (hclose : ')' ∉ r) :
    (∃ q, Build cb sz r = some q ∧
      Build cb sz ("$(".toList ++ r) = some ⟨"(".toList ++ q.m_string, q.calls⟩ ∧
      ∀ key, Call.formatKey key ∉ q.calls) ∧
    Build baseCallbacks 1 "abc$(oops".toList = some ⟨"abc(oops".toList, []⟩ ∧
    Build ⟨fun c => [c, c], fun _ => []⟩ 1 "$(a%b".toList =
      some ⟨"(abb".toList, [Call.formatChar 'b']⟩ := by
  refine ⟨?_, by decide, by decide⟩
  obtain ⟨q, hq, h⟩ := Build_dollar_paren_open cb sz r hclose
  exact ⟨q, hq, h, Build_no_key cb sz r q hclose hq⟩

/-- C16 at `r = "a%b"` with a callback that doubles the format character. -/
theorem Build_unterminated_emits_witness :
    ')' ∉ "a%b".toList ∧
    ((∃ q, Build ⟨fun c => [c, c], fun _ => []⟩ 1 "a%b".toList = some q ∧
        Build ⟨fun c => [c, c], fun _ => []⟩ 1 ("$(".toList ++ "a%b".toList) =
          some ⟨"(".toList ++ q.m_string, q.calls⟩ ∧
        ∀ key, Call.formatKey key ∉ q.calls) ∧
      Build baseCallbacks 1 "abc$(oops".toList = some ⟨"abc(oops".toList, []⟩ ∧
      Build ⟨fun c => [c, c], fun _ => []⟩ 1 "$(a%b".toList =
        some ⟨"(abb".toList, [Call.formatChar 'b']⟩) :=
  ⟨by decide,
    Build_unterminated_emits ⟨fun c => [c, c], fun _ => []⟩ 1 "a%b".toList (by decide)⟩

/-- C17. `$$` not followed by `(` falls into the key branch (one-byte `TCHAR`): for
`name` not beginning with `(` and without `)`, `Build` on `$$name)` and `u` copies
neither `$`, invokes `OnFormatKey(name)` once and goes on with the expansion of `u`,
which is what it does on `$(name)` and `u`.  With `OnFormatKey` a lookup in the
dictionary `a ↦ VALUE`, `Build("$$a)")` is `VALUE`. -/
theorem Build_dollar_dollar_reference (cb : Callbacks) (name u : List Char)
    (hopen : name.head? ≠ some '(') (hclose : ')' ∉ name) (hnul : NUL ∉ name) :
    (∃ r, Build cb 1 u = some r ∧
      Build cb 1 ("$$".toList ++ name ++ ")".toList ++ u) =
        some ⟨cb.OnFormatKey name ++ r.m_string, Call.formatKey name :: r.calls⟩) ∧
    Build cb 1 ("$$".toList ++ name ++ ")".toList ++ u) =
      Build cb 1 ("$(".toList ++ name ++ ")".toList ++ u) ∧
    Build (dictionaryCallbacks [("a".toList, "VALUE".toList)]) 1 "$$a)".toList =
      some ⟨"VALUE".toList, [Call.formatKey "a".toList]⟩ := by
  have e1 : "$$".toList ++ name ++ ")".toList ++ u = '$' :: '$' :: (name ++ ')' :: u) := by
    show ['$', '$'] ++ name ++ [')'] ++ u = _
    simp
  have e2 : "$(".toList ++ name ++ ")".toList ++ u = '$' :: '(' :: (name ++ ')' :: u) := by
    show ['$', '('] ++ name ++ [')'] ++ u = _
    simp
  obtain ⟨r, hr, h⟩ := Build_dollar_dollar_key cb name u hopen hclose hnul
  obtain ⟨r2, hr2, h2⟩ := Build_key cb name u hclose hnul
  rw [hr] at hr2
  cases hr2
  refine ⟨⟨r, hr, by rw [e1]; exact h⟩, by rw [e1, e2, h, h2], by decide⟩

/-- C17 at `name = "a"`, `u = "!"` with the dictionary callbacks `a ↦ VALUE`. -/
theorem Build_dollar_dollar_reference_witness :
    ("a".toList.head? ≠ some '(' ∧ ')' ∉ "a".toList ∧ NUL ∉ "a".toList) ∧
    ((∃ r, Build (dictionaryCallbacks [("a".toList, "VALUE".toList)]) 1 "!".toList = some r ∧
        Build (dictionaryCallbacks [("a".toList, "VALUE".toList)]) 1
            ("$$".toList ++ "a".toList ++ ")".toList ++ "!".toList) =
          some ⟨(dictionaryCallbacks [("a".toList, "VALUE".toList)]).OnFormatKey "a".toList ++
            r.m_string, Call.formatKey "a".toList :: r.calls⟩) ∧
      Build (dictionaryCallbacks [("a".toList, "VALUE".toList)]) 1
          ("$$".toList ++ "a".toList ++ ")".toList ++ "!".toList) =
        Build (dictionaryCallbacks [("a".toList, "VALUE".toList)]) 1
          ("$(".toList ++ "a".toList ++ ")".toList ++ "!".toList) ∧
      Build (dictionaryCallbacks [("a".toList, "VALUE".toList)]) 1 "$$a)".toList =
        some ⟨"VALUE".toList, [Call.formatKey "a".toList]⟩) :=
  ⟨⟨by decide, by decide, by decide⟩,
    Build_dollar_dollar_reference (dictionaryCallbacks [("a".toList, "VALUE".toList)])
      "a".toList "!".toList (by decide) (by decide) (by decide)⟩

/-- C18. `Build` is total and in bounds.  For every template, with `len` its length:
`Build` with every read `str[k]` checked to lie in `[0, len)`, the pointer `&str[i+2]`
checked to lie in `[0, len]`, the `)` found checked to lie before the terminator, and
both assertions of `SafeGetNextChar` checked, returns, and returns what `Build`
returns, within `len` iterations; at every index `i < len` the checked body succeeds, the index it leaves is
at least `i` and still below `len`, so the next index is larger than `i`; and when the
body has invoked `OnFormatKey(key)` (one-byte `TCHAR`) the index it leaves is that of
the first `)` behind `str[i+2]`, `key` being the text in between. -/
theorem Build_total_in_bounds (cb : Callbacks) (sz : Nat) (str : List Char) :
    (∃ r, BuildChecked cb sz str = some r ∧ Build cb sz str = some r) ∧
    (∀ s : LoopState, s.i < tcslen str →
      loopBodyChecked cb sz str (tcslen str) s =
        some (loopBody cb sz str (tcslen str) s) ∧
      s.i ≤ (loopBody cb sz str (tcslen str) s).i ∧
      (loopBody cb sz str (tcslen str) s).i < tcslen str ∧
      s.i < (loopBody cb sz str (tcslen str) s).i + 1) ∧
    (∀ (s : LoopState) (key : List Char), s.i < tcslen str →
      (loopBody cb 1 str (tcslen str) s).out.calls = s.out.calls ++ [Call.formatKey key] →
      s.i + 2 ≤ (loopBody cb 1 str (tcslen str) s).i ∧
      (loopBody cb 1 str (tcslen str) s).i < tcslen str ∧
      charAt str (loopBody cb 1 str (tcslen str) s).i = ')' ∧
      key = (str.drop (s.i + 2)).take ((loopBody cb 1 str (tcslen str) s).i - (s.i + 2)) ∧
      ')' ∉ key) := by
  refine ⟨?_, ?_, ?_⟩
  · obtain ⟨r, hr⟩ := Build_total cb sz str
    refine ⟨r, ?_, hr⟩
    rw [← hr]
    simp only [BuildChecked, Build, buildLoopChecked_eq]
  · intro s hi
    have hle := loopBody_index_le cb sz str (tcslen str) s
    exact ⟨loopBodyChecked_eq cb sz str s hi, hle, loopBody_index_lt cb sz str s hi,
      by omega⟩
  · intro s key hi h
    exact loopBody_key cb str s key hi h

/-- C18 at the template `a$(key)b`, at the index of its `$`, with the base
callbacks: the body leaves the index of the `)`. -/
theorem Build_total_in_bounds_witness :
    (1 < tcslen "a$(key)b".toList ∧
      (loopBody baseCallbacks 1 "a$(key)b".toList (tcslen "a$(key)b".toList)
          ⟨1, Output.empty⟩).out.calls =
        Output.empty.calls ++ [Call.formatKey "key".toList]) ∧
    (loopBody baseCallbacks 1 "a$(key)b".toList (tcslen "a$(key)b".toList)
        ⟨1, Output.empty⟩).i < tcslen "a$(key)b".toList ∧
    charAt "a$(key)b".toList (loopBody baseCallbacks 1 "a$(key)b".toList
      (tcslen "a$(key)b".toList) ⟨1, Output.empty⟩).i = ')' :=
  ⟨⟨by decide, by decide⟩,
    ((Build_total_in_bounds baseCallbacks 1 "a$(key)b".toList).2.2 ⟨1, Output.empty⟩
      "key".toList (by decide) (by decide)).2.1,
    ((Build_total_in_bounds baseCallbacks 1 "a$(key)b".toList).2.2 ⟨1, Output.empty⟩
      "key".toList (by decide) (by decide)).2.2.1⟩

/-! ## The claims on `StringTokenise`, `strFirstNonWS` and `strLastNonWSChar` -/

theorem charAt_mem (line : List Char) :
    ∀ k, k < line.length → charAt line k ∈ line := by
  induction line with
  | nil => intro k h; simp at h
  | cons x xs ih =>
    intro k h
    cases k with
    | zero => simp [charAt]
    | succ k =>
      have hk : k < xs.length := by simpa using h
      exact List.mem_cons_of_mem _ (by simpa [charAt] using ih k hk)

/-- Where `strLastNonWSChar(line, n)` points for `n ≥ 1`: at the last character of
`line[0..n-1]` that is no whitespace when there is one, at index 0 when there is
none. -/
theorem strLastNonWSChar_cases (line : List Char) (n : Nat) (hn : 1 ≤ n) :
    ∃ m : Nat, strLastNonWSChar line (n : Int) = (m : Int) ∧ m ≤ n - 1 ∧
      (∀ j, m < j → j ≤ n - 1 → isWS (charAt line j) = true) ∧
      ((∃ j, j < n ∧ isWS (charAt line j) = false) → isWS (charAt line m) = false) ∧
      ((∀ j, j < n → isWS (charAt line j) = true) → m = 0) := by
  obtain ⟨m, e, hm, hws, hend⟩ := strLastNonWSChar_spec line n hn
  refine ⟨m, e, hm, hws, ?_, ?_⟩
  · rintro ⟨j, hj, hjws⟩
    rcases hend with h0 | h0
    · by_cases hj0 : j = 0
      · rw [h0, ← hj0]; exact hjws
      · have := hws j (by omega) (by omega)
        rw [this] at hjws
        exact absurd hjws (by decide)
    · exact h0
  · intro hall
    rcases hend with h0 | h0
    · exact h0
    · have := hall m (by omega)
      rw [this] at h0
      exact absurd h0 (by decide)

/-- C13. `StringTokenise(str, tokens, delimiters)`, for a string shorter than `npos`,
appends to `tokens` the pieces of `str` split at every delimiter character with the
empty pieces discarded, in order.  Hence no appended token is empty or holds a
delimiter, the tokens put together are the non-delimiter characters of `str`, leading
and trailing delimiters add nothing, an empty `str` gives no token, an empty delimiter
set gives a non-empty `str` as its one token, and `"a  b\tc"` with the delimiters
space and tab gives `a`, `b`, `c`. -/
theorem StringTokenise_tokens (npos : Nat) (str : List Char) (tokens : List (List Char))
    (delimiters : List Char) (hlen : str.length < npos) :
    StringTokenise npos str tokens delimiters =
      Except.ok (tokens ++ splitDiscardEmpty str delimiters) ∧
    (∀ t ∈ splitDiscardEmpty str delimiters, t ≠ [] ∧ ∀ c ∈ t, c ∉ delimiters) ∧
    (splitDiscardEmpty str delimiters).flatten =
      str.filter (fun c => !delimiters.contains c) ∧
    (∀ ds : List Char, (∀ c ∈ ds, c ∈ delimiters) →
      splitDiscardEmpty (ds ++ str) delimiters = splitDiscardEmpty str delimiters ∧
      splitDiscardEmpty (str ++ ds) delimiters = splitDiscardEmpty str delimiters) ∧
    StringTokenise npos [] tokens delimiters = Except.ok tokens ∧
    (str ≠ [] → StringTokenise npos str tokens [] = Except.ok (tokens ++ [str])) ∧
    StringTokenise (2 ^ 64 - 1) "a  b\tc".toList [] " \t".toList =
      Except.ok ["a".toList, "b".toList, "c".toList] ∧
    StringTokenise (2 ^ 64 - 1) " \ta  b\t\tc  ".toList [] " \t".toList =
      Except.ok ["a".toList, "b".toList, "c".toList] := by
  refine ⟨StringTokenise_eq npos str tokens delimiters hlen, ?_, ?_, ?_, ?_, ?_, rfl, rfl⟩
  · intro t ht
    simp only [splitDiscardEmpty, List.mem_filter] at ht
    refine ⟨?_, ?_⟩
    · intro e
      rw [e] at ht
      simp at ht
    · intro c hc
      have := splitOnP_pieces _ str t ht.1 c hc
      simpa using this
  · rw [splitDiscardEmpty, flatten_filter_nonempty, splitOnP_flatten]
  · intro ds hds
    have hds2 : ∀ x ∈ ds, delimiters.contains x = true := fun x hx => by
      simpa using hds x hx
    exact ⟨splitDiscardEmpty_delims delimiters ds str hds2,
      splitDiscardEmpty_trailing delimiters ds hds2 str.length str (Nat.le_refl _)⟩
  · have := StringTokenise_eq npos [] tokens delimiters (by simp; omega)
    simpa [splitDiscardEmpty_nil] using this
  · intro hne
    rw [StringTokenise_eq npos str tokens [] hlen,
      splitDiscardEmpty_single [] str hne (by simp)]

/-- C13 at `str = "a  b\tc"`, delimiters space and tab, `tokens` holding `x`, with
64-bit `size_type`. -/
theorem StringTokenise_tokens_witness :
    "a  b\tc".toList.length < 2 ^ 64 - 1 ∧
    StringTokenise (2 ^ 64 - 1) "a  b\tc".toList ["x".toList] " \t".toList =
      Except.ok (["x".toList] ++ splitDiscardEmpty "a  b\tc".toList " \t".toList) ∧
    splitDiscardEmpty "a  b\tc".toList " \t".toList = ["a".toList, "b".toList, "c".toList] :=
  ⟨by decide,
    (StringTokenise_tokens (2 ^ 64 - 1) "a  b\tc".toList ["x".toList] " \t".toList
      (by decide)).1,
    by decide⟩

/-- C14. `strFirstNonWS(line)` is the index of the first character that is neither a
space (`0x20`) nor a tab (`0x09`): it is at most the length of the line, every
character before it is a space or a tab, it is the length or the character at it is
neither, and it is the length exactly when the line holds only spaces and tabs. -/
theorem strFirstNonWS_first (line : List Char) :
    strFirstNonWS line ≤ tcslen line ∧
    (∀ k, k < strFirstNonWS line → charAt line k = ' ' ∨ charAt line k = TAB) ∧
    (strFirstNonWS line = tcslen line ∨
      (charAt line (strFirstNonWS line) ≠ ' ' ∧ charAt line (strFirstNonWS line) ≠ TAB)) ∧
    (strFirstNonWS line = tcslen line ↔
      ∀ k, k < tcslen line → charAt line k = ' ' ∨ charAt line k = TAB) ∧
    (' '.toNat = 0x20 ∧ TAB.toNat = 0x09) := by
  obtain ⟨h1, h2, h3⟩ := strFirstNonWS_spec line
  refine ⟨h1, fun k hk => (isWS_iff _).1 (h2 k hk), Or.inr ((isWS_false_iff _).1 h3), ?_,
    by decide⟩
  constructor
  · intro e k hk
    exact (isWS_iff _).1 (h2 k (by omega))
  · intro hall
    by_contra hne
    have hlt : strFirstNonWS line < tcslen line := by omega
    have := (isWS_iff _).2 (hall _ hlt)
    rw [this] at h3
    exact absurd h3 (by decide)

/-- C15, as stated, fails: on the line of two spaces with `n = 2` the result is 0, and
the character at index 0 is a space. -/
theorem strLastNonWSChar_blank_line :
    (1 ≤ 2 ∧ 2 ≤ "  ".toList.length) ∧
    strLastNonWSChar "  ".toList 2 = 0 ∧ charAt "  ".toList 0 = ' ' := by
  decide

/-- C15, amended. For `n ≥ 1` not exceeding the length, `strLastNonWSChar(line, n)` is
an index `m` of `line[0..n-1]` behind which every character up to `n-1` is a space or
a tab; when some character of `line[0..n-1]` is neither, in particular when `m > 0`,
the character at `m` is neither, so `m` is the index of the last such character; when
every character of `line[0..n-1]` is a space or a tab, `m` is 0. -/
theorem strLastNonWSChar_last (line : List Char) (n : Nat) (h1 : 1 ≤ n)
    (hn : n ≤ line.length) :
    ∃ m : Nat, strLastNonWSChar line (n : Int) = (m : Int) ∧ m ≤ n - 1 ∧
      m < line.length ∧
      (∀ j, m < j → j ≤ n - 1 → charAt line j = ' ' ∨ charAt line j = TAB) ∧
      ((∃ j, j < n ∧ charAt line j ≠ ' ' ∧ charAt line j ≠ TAB) →
        charAt line m ≠ ' ' ∧ charAt line m ≠ TAB) ∧
      (0 < m → charAt line m ≠ ' ' ∧ charAt line m ≠ TAB) ∧
      ((∀ j, j < n → charAt line j = ' ' ∨ charAt line j = TAB) → m = 0) := by
  obtain ⟨m, e, hm, hws, hsome, hall⟩ := strLastNonWSChar_cases line n h1
  refine ⟨m, e, hm, by omega, fun j a b => (isWS_iff _).1 (hws j a b), ?_, ?_, ?_⟩
  · rintro ⟨j, hj, hne⟩
    exact (isWS_false_iff _).1 (hsome ⟨j, hj, (isWS_false_iff _).2 hne⟩)
  · intro hpos
    by_contra hc
    have hmw : isWS (charAt line m) = true := by
      cases hw : isWS (charAt line m) with
      | true => rfl
      | false => exact absurd ((isWS_false_iff _).1 hw) hc
    have : m = 0 := hall (fun j hj => by
      by_cases hjm : j ≤ m
      · by_cases hjm2 : j = m
        · rw [hjm2]; exact hmw
        · by_contra hj2
          have hjf : isWS (charAt line j) = false := by
            cases hw : isWS (charAt line j) with
            | true => exact absurd hw hj2
            | false => rfl
          have := hsome ⟨j, hj, hjf⟩
          rw [hmw] at this
          exact absurd this (by decide)
      · exact hws j (by omega) (by omega))
    omega
  · intro h
    exact hall (fun j hj => (isWS_iff _).2 (h j hj))

/-- C15, amended, at the line `ab \t` with `n = 4`: the result is 1. -/
theorem strLastNonWSChar_last_witness :
    (1 ≤ 4 ∧ 4 ≤ "ab \t".toList.length) ∧
    ∃ m : Nat, strLastNonWSChar "ab \t".toList ((4 : Nat) : Int) = (m : Int) ∧ m ≤ 4 - 1 ∧
      m < "ab \t".toList.length ∧
      (∀ j, m < j → j ≤ 4 - 1 →
        charAt "ab \t".toList j = ' ' ∨ charAt "ab \t".toList j = TAB) ∧
      ((∃ j, j < 4 ∧ charAt "ab \t".toList j ≠ ' ' ∧ charAt "ab \t".toList j ≠ TAB) →
        charAt "ab \t".toList m ≠ ' ' ∧ charAt "ab \t".toList m ≠ TAB) ∧
      (0 < m → charAt "ab \t".toList m ≠ ' ' ∧ charAt "ab \t".toList m ≠ TAB) ∧
      ((∀ j, j < 4 → charAt "ab \t".toList j = ' ' ∨ charAt "ab \t".toList j = TAB) →
        m = 0) :=
  ⟨⟨by decide, by decide⟩, strLastNonWSChar_last "ab \t".toList 4 (by decide) (by decide)⟩

/-- C19. `StringTokenise` only appends: for strings shorter than `npos` and every
former content of `tokens`, the vector after the call is the former content, unchanged
and in its order, followed by the tokens of `str` (the non-empty pieces of `str` split
at its delimiters, which is what the call gives on an empty vector); tokenising `s1`
and then `s2` into the same vector gives the former content, the tokens of `s1` and
the tokens of `s2`.  With the delimiter space and a vector holding `x`, `"a b"` gives
`x`, `a`, `b`, and `" c"` after it gives `x`, `a`, `b`, `c`. -/
theorem StringTokenise_appends (npos : Nat) (s1 s2 : List Char) (tokens : List (List Char))
    (delimiters : List Char) (h1 : s1.length < npos) (h2 : s2.length < npos) :
    StringTokenise npos s1 tokens delimiters =
      Except.ok (tokens ++ splitDiscardEmpty s1 delimiters) ∧
    StringTokenise npos s1 [] delimiters = Except.ok (splitDiscardEmpty s1 delimiters) ∧
    StringTokenise npos s2 [] delimiters = Except.ok (splitDiscardEmpty s2 delimiters) ∧
    ((StringTokenise npos s1 tokens delimiters).bind fun v =>
        StringTokenise npos s2 v delimiters) =
      Except.ok (tokens ++ splitDiscardEmpty s1 delimiters ++
        splitDiscardEmpty s2 delimiters) ∧
    ((StringTokenise npos s1 [] delimiters).bind fun v =>
        StringTokenise npos s2 v delimiters) =
      Except.ok (splitDiscardEmpty s1 delimiters ++ splitDiscardEmpty s2 delimiters) ∧
    StringTokenise (2 ^ 64 - 1) "a b".toList ["x".toList] " ".toList =
      Except.ok ["x".toList, "a".toList, "b".toList] ∧
    ((StringTokenise (2 ^ 64 - 1) "a b".toList ["x".toList] " ".toList).bind fun v =>
        StringTokenise (2 ^ 64 - 1) " c".toList v " ".toList) =
      Except.ok ["x".toList, "a".toList, "b".toList, "c".toList] := by
  refine ⟨StringTokenise_eq npos s1 tokens delimiters h1, ?_, ?_, ?_, ?_, rfl, rfl⟩
  · simpa using StringTokenise_eq npos s1 [] delimiters h1
  · simpa using StringTokenise_eq npos s2 [] delimiters h2
  · rw [StringTokenise_eq npos s1 tokens delimiters h1]
    exact StringTokenise_eq npos s2 _ delimiters h2
  · rw [StringTokenise_eq npos s1 [] delimiters h1]
    simpa using StringTokenise_eq npos s2 _ delimiters h2

/-- C19 at `s1 = "a b"`, `s2 = " c"`, `tokens` holding `x`, the delimiter space, with
64-bit `size_type`: the vector ends as `x`, `a`, `b`, `c`. -/
theorem StringTokenise_appends_witness :
    ("a b".toList.length < 2 ^ 64 - 1 ∧ " c".toList.length < 2 ^ 64 - 1) ∧
    (splitDiscardEmpty "a b".toList " ".toList = ["a".toList, "b".toList] ∧
      splitDiscardEmpty " c".toList " ".toList = ["c".toList]) ∧
    StringTokenise (2 ^ 64 - 1) "a b".toList ["x".toList] " ".toList =
      Except.ok (["x".toList] ++ splitDiscardEmpty "a b".toList " ".toList) ∧
    ((StringTokenise (2 ^ 64 - 1) "a b".toList ["x".toList] " ".toList).bind fun v =>
        StringTokenise (2 ^ 64 - 1) " c".toList v " ".toList) =
      Except.ok (["x".toList] ++ splitDiscardEmpty "a b".toList " ".toList ++
        splitDiscardEmpty " c".toList " ".toList) :=
  ⟨⟨by decide, by decide⟩, ⟨by decide, by decide⟩,
    (StringTokenise_appends (2 ^ 64 - 1) "a b".toList " c".toList ["x".toList] " ".toList
      (by decide) (by decide)).1,
    (StringTokenise_appends (2 ^ 64 - 1) "a b".toList " c".toList ["x".toList] " ".toList
      (by decide) (by decide)).2.2.2.1⟩

/-- C20. The result of `strLastNonWSChar(line, n)` with `n` the length of the line:
when some character is neither a space nor a tab it is the index of the last such
character; when the line is not empty and holds only spaces and tabs it is 0, the
index of a space or tab, where `strFirstNonWS` returns the length; with `n = 0` it
is -1; and in every case it lies between -1 and `n - 1`.  The lines of three spaces
and `a` with two spaces give the same result. -/
theorem strLastNonWSChar_full (line : List Char) :
    ((∃ j, j < line.length ∧ charAt line j ≠ ' ' ∧ charAt line j ≠ TAB) →
      ∃ m : Nat, strLastNonWSChar line (line.length : Int) = (m : Int) ∧
        m < line.length ∧ (charAt line m ≠ ' ' ∧ charAt line m ≠ TAB) ∧
        ∀ j, m < j → j < line.length → charAt line j = ' ' ∨ charAt line j = TAB) ∧
    (line ≠ [] → (∀ c ∈ line, c = ' ' ∨ c = TAB) →
      strLastNonWSChar line (line.length : Int) = 0 ∧
      (charAt line 0 = ' ' ∨ charAt line 0 = TAB) ∧
      strFirstNonWS line = line.length) ∧
    strLastNonWSChar line 0 = -1 ∧
    (-1 ≤ strLastNonWSChar line (line.length : Int) ∧
      strLastNonWSChar line (line.length : Int) ≤ (line.length : Int) - 1) ∧
    strLastNonWSChar "   ".toList 3 = strLastNonWSChar "a  ".toList 3 := by
  refine ⟨?_, ?_, rfl, ?_, by decide⟩
  · rintro ⟨j, hj, hne⟩
    obtain ⟨m, e, hm, hws, hsome, _⟩ := strLastNonWSChar_cases line line.length (by omega)
    refine ⟨m, e, by omega, (isWS_false_iff _).1 (hsome ⟨j, hj, (isWS_false_iff _).2 hne⟩),
      fun k a b => (isWS_iff _).1 (hws k a (by omega))⟩
  · intro hne hall
    have hpos : 1 ≤ line.length := by
      cases line with
      | nil => exact absurd rfl hne
      | cons x xs => simp
    obtain ⟨m, e, _, _, _, hzero⟩ := strLastNonWSChar_cases line line.length hpos
    have hm0 : m = 0 := hzero (fun j hj => (isWS_iff _).2 (hall _ (charAt_mem line j hj)))
    subst hm0
    exact ⟨by simpa using e, hall _ (charAt_mem line 0 (by omega)),
      strFirstNonWS_all line (fun c hc => (isWS_iff _).2 (hall c hc))⟩
  · cases hl : line.length with
    | zero =>
      have e : strLastNonWSChar line ((0 : Nat) : Int) = -1 := rfl
      rw [e]
      omega
    | succ k =>
      obtain ⟨m, e, hm, _⟩ := strLastNonWSChar_cases line (k + 1) (by omega)
      rw [e]
      omega

/-- C20 at the lines `ab \t` (some character is no whitespace) and ` \t ` (only
whitespace). -/
theorem strLastNonWSChar_full_witness :
    ((∃ j, j < "ab \t".toList.length ∧ charAt "ab \t".toList j ≠ ' ' ∧
        charAt "ab \t".toList j ≠ TAB) ∧
      " \t ".toList ≠ [] ∧ (∀ c ∈ " \t ".toList, c = ' ' ∨ c = TAB)) ∧
    (∃ m : Nat, strLastNonWSChar "ab \t".toList ("ab \t".toList.length : Int) = (m : Int) ∧
      m < "ab \t".toList.length ∧
      (charAt "ab \t".toList m ≠ ' ' ∧ charAt "ab \t".toList m ≠ TAB) ∧
      ∀ j, m < j → j < "ab \t".toList.length →
        charAt "ab \t".toList j = ' ' ∨ charAt "ab \t".toList j = TAB) ∧
    (strLastNonWSChar " \t ".toList (" \t ".toList.length : Int) = 0 ∧
      (charAt " \t ".toList 0 = ' ' ∨ charAt " \t ".toList 0 = TAB) ∧
      strFirstNonWS " \t ".toList = " \t ".toList.length) :=
  ⟨⟨⟨1, by decide⟩, by decide, by decide⟩,
    (strLastNonWSChar_full "ab \t".toList).1 ⟨1, by decide⟩,
    (strLastNonWSChar_full " \t ".toList).2.1 (by decide) (by decide)⟩

end PN
